import Mathlib

/-!
Shallow embedding of the kvdex core (src/src/atomic_builder.ts and
src/src/large_collection.ts) over an explicit key-value store model,
together with proofs of the spec claims about those two files.

Conventions of the embedding:
* A composite key is a list of key parts (strings / numbers), compared
  part-wise (spec section 3 "Composite Key").
* The underlying KV store (out of scope for the repository, spec section
  4.2) is a finite association list from keys to values, each entry
  carrying a versionstamp.  An atomic batch is a list of commands whose
  checks are all evaluated against the pre-state; if every check passes
  the mutations are applied together (all-or-nothing).  An `oracle` list
  of booleans models environment interference: a commit whose checks pass
  can still report `{ok:false}` (version conflicts with concurrent
  writers), which is what the large-collection retry path reacts to.
* Serialized JSON text is modelled as `List Char`; `substring(i, i+L)`
  becomes take/drop chunking.
* Asynchronous closures accumulated by the builder are represented as
  explicit command lists / prepare descriptors (the command-queue view
  described in spec section 9), and every store interaction is recorded
  in an event log so that "no store I/O happened" is observable.
-/

/-- A single part of a composite key: string, or number (spec section 3). -/
inductive KvKeyPart where
  | str (s : String)
  | num (n : Nat)
deriving DecidableEq, Repr

/-- A composite key is an ordered sequence of parts (spec section 3). -/
abbrev KvKey := List KvKeyPart

/-- Document ids are key parts (spec section 3, "Document identity"). -/
abbrev KvId := KvKeyPart

/-- Modelled from the spec (section 4.1 Key Codec, code not under src/):
`extend(key, ...parts)` appends parts to a key. -/
def extendKey (key : KvKey) (parts : List KvKeyPart) : KvKey :=
  key ++ parts

/-- Modelled from the spec (section 4.1 Key Codec, code not under src/):
key equality is part-wise equality. -/
def keyEq (a b : KvKey) : Bool :=
  decide (a = b)

/-- Modelled from the spec (section 3 "Namespace layout", code not under
src/): the single reserved root segment under which all kvdex keys live. -/
def kvdexRootPart : KvKeyPart := .str "__kvdex__"

/-- Modelled from the spec (section 3): marker part of the `P / "id" / <docId>`
sub-namespace. -/
def idMarkerPart : KvKeyPart := .str "__id__"

/-- Modelled from the spec (section 3): marker part of the
`P / "segment" / <docId> / <segmentIndex>` sub-namespace. -/
def segmentMarkerPart : KvKeyPart := .str "__segment__"

/-- Modelled from the spec (section 3): marker part of the
`P / "primary_index" / <fieldName> / <fieldValue>` sub-namespace. -/
def primaryMarkerPart : KvKeyPart := .str "__primary_index__"

/-- Modelled from the spec (section 3): marker part of the
`P / "secondary_index" / <fieldName> / <fieldValue> / <docId>` sub-namespace. -/
def secondaryMarkerPart : KvKeyPart := .str "__secondary_index__"

/-- Serialized JSON text (JS strings), modelled as character lists. -/
abbrev Str := List Char

/-- Document data as seen by the index machinery: a finite record of
fields whose values are key parts (`_data[index] as KvId` in the source).
Fields not present in the list are `undefined`. -/
abbrev ModelData := List (String × KvId)

/-- Field lookup on document data; `none` models JS `undefined`. -/
def lookupField : ModelData → String → Option KvId
  | [], _ => none
  | (f, v) :: rest, g => if f = g then some v else lookupField rest g

/-- The values that the embedded code stores in the KV store:
plain document data, a primary-index entry (`{...data, __id__: id}`),
a large-document manifest (`{ids: [...]}`), or a JSON segment string. -/
inductive KvVal where
  | model (data : ModelData)
  | indexEntry (data : ModelData) (id : KvId)
  | manifest (ids : List KvId)
  | segment (s : Str)
deriving DecidableEq, Repr

/-- JS truthiness of a stored value: `null` is handled by `Option`;
among present values only the empty string is falsy. -/
def kvValTruthy : KvVal → Bool
  | .segment [] => false
  | _ => true

/-- String content of a stored value, as JS string coercion would see it
when joining JSON parts (non-string objects coerce to "[object Object]";
only segment values ever reach this join through the API). -/
def kvValStr : KvVal → Str
  | .segment s => s
  | _ => ("[object Object]").data

/-- The `ids` field of a stored manifest (`const { ids } = value`); values
that are not manifests have no such field, which reads as undefined and
is modelled as the empty list (unreachable through the API). -/
def kvValIds : KvVal → List KvId
  | .manifest ids => ids
  | _ => []

/-- Field record of a stored value (`doc.value` read back as a `Model`);
non-record values have no document fields. -/
def kvValData : KvVal → ModelData
  | .model d => d
  | .indexEntry d _ => d
  | _ => []

/-- One command of an atomic batch (spec section 4.2): a version check,
a key write, or a key delete.  `check k none` is the
`{key, versionstamp: null}` check asserting absence. -/
inductive AtomicOp where
  | check (k : KvKey) (vs : Option Nat)
  | set (k : KvKey) (v : KvVal)
  | del (k : KvKey)
deriving DecidableEq, Repr

/-- The store contents: keys mapped to a value and its versionstamp. -/
abbrev StoreEntries := List (KvKey × KvVal × Nat)

/-- Read a key from the store contents (first matching entry wins, and
writes prepend, so the latest write is found). -/
def storeGet : StoreEntries → KvKey → Option (KvVal × Nat)
  | [], _ => none
  | e :: rest, k => if e.1 = k then some e.2 else storeGet rest k

/-- Remove every entry at a key. -/
def storeDel (s : StoreEntries) (k : KvKey) : StoreEntries :=
  s.filter (fun e => decide (e.1 ≠ k))

/-- The stored value at a key, without its versionstamp. -/
def storeVal (s : StoreEntries) (k : KvKey) : Option KvVal :=
  (storeGet s k).map Prod.fst

/-- A store I/O event, recorded so that "no store I/O happened" and the
order of interactions are observable facts about a run. -/
inductive Event where
  | getE (k : KvKey)
  | commitE (ops : List AtomicOp) (ok : Bool)
  | deleteE (k : KvKey)
deriving DecidableEq, Repr

/-- The whole KV-store state threaded through the embedded code:
contents, a versionstamp clock, the interference oracle for commits,
and the event log (newest event first). -/
structure Kv where
  store : StoreEntries
  clock : Nat
  oracle : List Bool
  log : List Event
deriving DecidableEq, Repr

/-- `kv.get(key)` — read one key, recording the read. -/
def kvGet (kv : Kv) (k : KvKey) : Option (KvVal × Nat) × Kv :=
  (storeGet kv.store k, { kv with log := .getE k :: kv.log })

/-- Modelled from the spec (section 4.2, code not under src/):
`getMany` reads a list of keys, ordering preserved. -/
def kvGetMany (kv : Kv) : List KvKey → List (Option (KvVal × Nat)) × Kv
  | [] => ([], kv)
  | k :: ks =>
    let p := kvGet kv k
    let q := kvGetMany p.2 ks
    (p.1 :: q.1, q.2)

/-- `kv.delete(key)` — direct single-key delete, recording the event. -/
def kvDeleteKey (kv : Kv) (k : KvKey) : Kv :=
  { kv with store := storeDel kv.store k, log := .deleteE k :: kv.log }

/-- Whether one command's check passes against the given store contents
(non-check commands pass vacuously).  A `versionstamp: null` check passes
exactly when the key has no entry (spec section 4.2). -/
def checkOk (s : StoreEntries) : AtomicOp → Bool
  | .check k vs => decide ((storeGet s k).map Prod.snd = vs)
  | _ => true

/-- Apply one mutation of a committed batch; the whole batch shares one
versionstamp `stamp`. -/
def applyOp (stamp : Nat) (s : StoreEntries) : AtomicOp → StoreEntries
  | .check _ _ => s
  | .set k v => (k, v, stamp) :: s
  | .del k => storeDel s k

/-- Modelled from the spec (section 4.2, the store is a black box to the
repository): commit an atomic batch.  All checks are evaluated against
the pre-state; if any fails, or the interference oracle reports a version
conflict, nothing is applied and `{ok:false}` is returned; otherwise all
mutations are applied together under a fresh versionstamp. -/
def kvAtomicCommit (kv : Kv) (ops : List AtomicOp) : Bool × Kv :=
  let pass := ops.all (checkOk kv.store)
  let ok := pass && kv.oracle.headD true
  (ok,
    { store := if ok then ops.foldl (applyOp (kv.clock + 1)) kv.store else kv.store
      clock := if ok then kv.clock + 1 else kv.clock
      oracle := kv.oracle.tail
      log := .commitE ops ok :: kv.log })

/-- Modelled from the spec (section 4.2, code not under src/): the store
bounds batch sizes; `useAtomics` splits an operation list across as many
batches as needed. -/
def ATOMIC_OPERATION_LIMIT : Nat := 1000

/-- Structural worker for `chunks`: the first list is fuel (a copy of the
input), consumed at least one element per produced chunk. -/
def chunksF (limit : Nat) : List β → List β → List (List β)
  | [], _ => []
  | _ :: fuel, l =>
    match l with
    | [] => []
    | x :: xs => ((x :: xs).take limit) :: chunksF limit fuel ((x :: xs).drop limit)

/-- Slice a list into consecutive chunks of at most `limit` elements
(the slicing loops of `setDocument` and of the `useAtomics` helper;
a zero limit never occurs, the limits are positive constants). -/
def chunks (limit : Nat) (l : List β) : List (List β) :=
  chunksF limit l l

/-- Commit a list of prepared batches in order, collecting each batch's
commit result. -/
def commitBatches (kv : Kv) : List (List AtomicOp) → List Bool × Kv
  | [] => ([], kv)
  | b :: bs =>
    let p := kvAtomicCommit kv b
    let q := commitBatches p.2 bs
    (p.1 :: q.1, q.2)

/-- Modelled from the spec (section 4.2, code not under src/): the
`useAtomics` helper maps each element to one atomic command, splits the
commands across batches bounded by the store's batch limit, commits all
the batches, and returns the per-batch commit results. -/
def useAtomics (kv : Kv) (elems : List β) (fn : β → AtomicOp) : List Bool × Kv :=
  commitBatches kv ((chunks ATOMIC_OPERATION_LIMIT elems).map (List.map fn))

/-- Modelled from the spec (sections 4.1 and 6, code not under src/):
`getDocumentId` extracts the trailing identity fragment of a key — the
document id of an id-key, and the segment index of a segment key (the
manifest `{ids}` lists those trailing segment indices, section 6). -/
def getDocumentId (key : KvKey) : Option KvKeyPart :=
  key.getLast?

/-! ## Collections (schema side)

The `Collection` / `IndexableCollection` classes are not under src/; the
builder only consumes their precomputed keys and index lists, so a
collection is modelled from the spec (section 3 "Namespace layout",
section 4.5) as its path plus, for indexable collections, the primary and
secondary index field lists.  The `instanceof IndexableCollection`
dispatch of the source becomes a match on this sum. -/

inductive Coll where
  | plain (path : KvKey)
  | indexable (path : KvKey) (primary secondary : List String)
deriving DecidableEq, Repr

/-- The collection's path. -/
def Coll.path : Coll → KvKey
  | .plain p => p
  | .indexable p _ _ => p

/-- `collection.collectionIdKey`: `[root, ...path, "id"]`. -/
def Coll.collectionIdKey (c : Coll) : KvKey :=
  extendKey [kvdexRootPart] (c.path ++ [idMarkerPart])

/-- `collection.primaryCollectionIndexKey`: `[root, ...path, "primary_index"]`. -/
def Coll.primaryCollectionIndexKey (c : Coll) : KvKey :=
  extendKey [kvdexRootPart] (c.path ++ [primaryMarkerPart])

/-- `collection.secondaryCollectionIndexKey`: `[root, ...path, "secondary_index"]`. -/
def Coll.secondaryCollectionIndexKey (c : Coll) : KvKey :=
  extendKey [kvdexRootPart] (c.path ++ [secondaryMarkerPart])

/-- `collection.primaryIndexList` (empty for non-indexable collections). -/
def Coll.primaryIndexList : Coll → List String
  | .plain _ => []
  | .indexable _ prim _ => prim

/-- `collection.secondaryIndexList` (empty for non-indexable collections). -/
def Coll.secondaryIndexList : Coll → List String
  | .plain _ => []
  | .indexable _ _ sec => sec

/-! ## AtomicBuilder (src/src/atomic_builder.ts)

The builder's closure lists are represented as explicit data: `atomicFns`
becomes the list of atomic commands the closures would fold into the
batch (in push order), and each `prepareDeleteFns` closure becomes a
`PrepareDelete` descriptor capturing exactly what the source closure
captures. -/

/-- What one `prepareDeleteFns` closure captures (`AtomicBuilder.delete`,
src/src/atomic_builder.ts lines 226-237). -/
structure PrepareDelete where
  idKey : KvKey
  id : KvId
  primaryCollectionIndexKey : KvKey
  secondaryCollectionIndexKey : KvKey
  primaryIndexList : List String
  secondaryIndexList : List String
deriving DecidableEq, Repr

/-- The builder's accumulated `Operations` record
(src/src/atomic_builder.ts lines 49-54). -/
structure Operations where
  atomicFns : List AtomicOp
  prepareDeleteFns : List PrepareDelete
  indexDeleteCollectionKeys : List KvKey
  indexAddCollectionKeys : List KvKey
deriving DecidableEq, Repr

/-- The freshly initialized `Operations` record. -/
def emptyOperations : Operations :=
  { atomicFns := []
    prepareDeleteFns := []
    indexDeleteCollectionKeys := []
    indexAddCollectionKeys := [] }

/-- The primary-index fragments pushed by `add`/`set` for the given data:
for each primary index field with a defined value, a
`set(indexKey, {...data, __id__: id})` followed by a
`check({key: indexKey, versionstamp: null})`
(src/src/atomic_builder.ts lines 102-118 and 166-182). -/
def primaryIndexOps (primaryCollectionIndexKey : KvKey) (primary : List String)
    (data : ModelData) (id : KvId) : List AtomicOp :=
  primary.flatMap fun index =>
    match lookupField data index with
    | none => []
    | some indexValue =>
      let indexKey := extendKey primaryCollectionIndexKey [.str index, indexValue]
      [.set indexKey (.indexEntry data id), .check indexKey none]

/-- The secondary-index fragments pushed by `add`/`set`: for each
secondary index field with a defined value, a `set(indexKey, data)`
followed by a `check({key: indexKey, versionstamp: null})`
(src/src/atomic_builder.ts lines 120-134 and 184-198). -/
def secondaryIndexOps (secondaryCollectionIndexKey : KvKey) (secondary : List String)
    (data : ModelData) (id : KvId) : List AtomicOp :=
  secondary.flatMap fun index =>
    match lookupField data index with
    | none => []
    | some indexValue =>
      let indexKey := extendKey secondaryCollectionIndexKey [.str index, indexValue, id]
      [.set indexKey (.model data), .check indexKey none]

/-- `AtomicBuilder.set(id, data)` (src/src/atomic_builder.ts lines
147-202): push `check({idKey, versionstamp: null})` + `set(idKey, data)`;
for indexable collections, also mark the collection in
`indexAddCollectionKeys` and push the per-field index fragments. -/
def builderSet (c : Coll) (id : KvId) (data : ModelData) (ops : Operations) : Operations :=
  let collectionKey := c.collectionIdKey
  let idKey := extendKey collectionKey [id]
  let ops1 := { ops with atomicFns :=
    ops.atomicFns ++ [.check idKey none, .set idKey (.model data)] }
  match c with
  | .plain _ => ops1
  | .indexable _ prim sec =>
    { ops1 with
      indexAddCollectionKeys := ops1.indexAddCollectionKeys ++ [collectionKey]
      atomicFns := ops1.atomicFns
        ++ primaryIndexOps c.primaryCollectionIndexKey prim data id
        ++ secondaryIndexOps c.secondaryCollectionIndexKey sec data id }

/-- `AtomicBuilder.add(data)` (src/src/atomic_builder.ts lines 82-138):
identical to `set` except that the id is freshly generated; the generated
id is passed as a parameter here (`generateId` is nondeterministic). -/
def builderAdd (c : Coll) (generatedId : KvId) (data : ModelData)
    (ops : Operations) : Operations :=
  let collectionIdKey := c.collectionIdKey
  let idKey := extendKey collectionIdKey [generatedId]
  let ops1 := { ops with atomicFns :=
    ops.atomicFns ++ [.check idKey none, .set idKey (.model data)] }
  match c with
  | .plain _ => ops1
  | .indexable _ prim sec =>
    { ops1 with
      indexAddCollectionKeys := ops1.indexAddCollectionKeys ++ [collectionIdKey]
      atomicFns := ops1.atomicFns
        ++ primaryIndexOps c.primaryCollectionIndexKey prim data generatedId
        ++ secondaryIndexOps c.secondaryCollectionIndexKey sec data generatedId }

/-- `AtomicBuilder.delete(id)` (src/src/atomic_builder.ts lines 210-241):
push `delete(idKey)`; for indexable collections, mark the collection in
`indexDeleteCollectionKeys` and register the prepare closure. -/
def builderDelete (c : Coll) (id : KvId) (ops : Operations) : Operations :=
  let collectionKey := c.collectionIdKey
  let idKey := extendKey collectionKey [id]
  let ops1 := { ops with atomicFns := ops.atomicFns ++ [.del idKey] }
  match c with
  | .plain _ => ops1
  | .indexable _ prim sec =>
    { ops1 with
      indexDeleteCollectionKeys := ops1.indexDeleteCollectionKeys ++ [collectionKey]
      prepareDeleteFns := ops1.prepareDeleteFns ++
        [{ idKey := idKey
           id := id
           primaryCollectionIndexKey := c.primaryCollectionIndexKey
           secondaryCollectionIndexKey := c.secondaryCollectionIndexKey
           primaryIndexList := prim
           secondaryIndexList := sec }] }

/-- What a prepare closure returns at commit time
(src/src/atomic_builder.ts lines 226-237): the captured keys and lists,
plus the document data read from the store (`doc.value ?? {}`). -/
structure PreparedIndexDelete where
  id : KvId
  data : ModelData
  primaryCollectionIndexKey : KvKey
  secondaryCollectionIndexKey : KvKey
  primaryIndexList : List String
  secondaryIndexList : List String
deriving DecidableEq, Repr

/-- Run one prepare closure against the live store. -/
def runPrepare (kv : Kv) (pd : PrepareDelete) : PreparedIndexDelete × Kv :=
  let p := kvGet kv pd.idKey
  ({ id := pd.id
     data := match p.1 with
       | some (v, _) => kvValData v
       | none => []
     primaryCollectionIndexKey := pd.primaryCollectionIndexKey
     secondaryCollectionIndexKey := pd.secondaryCollectionIndexKey
     primaryIndexList := pd.primaryIndexList
     secondaryIndexList := pd.secondaryIndexList }, p.2)

/-- Run all prepare closures (`Promise.all` over `prepareDeleteFns`,
src/src/atomic_builder.ts lines 409-411). -/
def runPrepares (kv : Kv) : List PrepareDelete → List PreparedIndexDelete × Kv
  | [] => ([], kv)
  | pd :: pds =>
    let p := runPrepare kv pd
    let q := runPrepares p.2 pds
    (p.1 :: q.1, q.2)

/-- The index keys deleted by one post-commit cleanup atomic
(src/src/atomic_builder.ts lines 432-457): for each index field with a
defined value in the captured data, delete the corresponding index key. -/
def cleanupOps (p : PreparedIndexDelete) : List AtomicOp :=
  (p.primaryIndexList.flatMap fun index =>
    match lookupField p.data index with
    | none => []
    | some indexValue =>
      [.del (extendKey p.primaryCollectionIndexKey [.str index, indexValue])])
  ++ (p.secondaryIndexList.flatMap fun index =>
    match lookupField p.data index with
    | none => []
    | some indexValue =>
      [.del (extendKey p.secondaryCollectionIndexKey [.str index, indexValue, p.id])])

/-- Commit the post-commit cleanup atomics, discarding their results
(best-effort, src/src/atomic_builder.ts lines 422-460). -/
def runCleanups (kv : Kv) : List PreparedIndexDelete → Kv
  | [] => kv
  | p :: ps => runCleanups (kvAtomicCommit kv (cleanupOps p)).2 ps

/-- `AtomicBuilder.commit` (src/src/atomic_builder.ts lines 394-465):
reject upfront if some collection is marked in both
`indexAddCollectionKeys` and `indexDeleteCollectionKeys` (key equality
via the key codec); otherwise run the prepare closures, commit the
accumulated batch, and on success run the best-effort index cleanups. -/
def commitBuilder (kv : Kv) (ops : Operations) : Bool × Kv :=
  if ops.indexAddCollectionKeys.any (fun addKey =>
      ops.indexDeleteCollectionKeys.any (fun deleteKey => keyEq addKey deleteKey)) then
    (false, kv)
  else
    let prep := runPrepares kv ops.prepareDeleteFns
    let res := kvAtomicCommit prep.2 ops.atomicFns
    if res.1 then
      (res.1, runCleanups res.2 prep.1)
    else
      (res.1, res.2)

/-! ## LargeCollection (src/src/large_collection.ts)

The type `α` of stored values and its JSON codec are parameters: JS's
`JSON.stringify` / `JSON.parse` are builtins outside the repository
(spec section 6 lists `serialize/deserialize` with that default), and
the model contract `parse` (spec section 4.3, also external) appears as
the total normalizer `mparse` — its throwing branch aborts before any
store I/O and is outside the embedded claims.  JSON text is `Str`
(`List Char`). -/

/-- The per-store value size bound; modelled from the spec (section 6,
"a per-value size limit LARGE_COLLECTION_STRING_LIMIT (typical: ~64
KiB)"; constants.ts is not under src/).  Only its positivity matters to
the claims. -/
def LARGE_COLLECTION_STRING_LIMIT : Nat := 65536

/-- A large collection: its path and its external collaborators
(JSON codec, model normalizer, id generator). -/
structure LC (α : Type) where
  path : KvKey
  stringify : α → Str
  parse : Str → Option α
  mparse : α → α
  idGen : α → KvId

/-- `this._keys.baseKey` (src/src/large_collection.ts line 88). -/
def LC.baseKey (lc : LC α) : KvKey :=
  extendKey [kvdexRootPart] lc.path

/-- `this._keys.idKey` (src/src/large_collection.ts lines 89-93). -/
def LC.idSpaceKey (lc : LC α) : KvKey :=
  extendKey [kvdexRootPart] (lc.path ++ [idMarkerPart])

/-- `this._keys.segmentKey` (src/src/large_collection.ts lines 94-98). -/
def LC.segmentSpaceKey (lc : LC α) : KvKey :=
  extendKey [kvdexRootPart] (lc.path ++ [segmentMarkerPart])

/-- The id-key of a document: `extendKey(this._keys.idKey, id)`. -/
def docIdKeyOf (lc : LC α) (docId : KvId) : KvKey :=
  extendKey lc.idSpaceKey [docId]

/-- The i-th segment key of a document:
`extendKey(this._keys.segmentKey, docId, index)`. -/
def segmentKeyOf (lc : LC α) (docId : KvId) (i : Nat) : KvKey :=
  extendKey lc.segmentSpaceKey [docId, .num i]

/-- The segment keys captured by `setDocument` while writing `n` parts
(indices 0, 1, ..., n-1 in push order). -/
def segmentKeysOf (lc : LC α) (docId : KvId) (n : Nat) : List KvKey :=
  (List.range n).map (segmentKeyOf lc docId)

/-- The segment-writing pass of `setDocument`
(src/src/large_collection.ts lines 294-301): one `set` per JSON part,
with sequential segment indices starting at 0, batched by `useAtomics`. -/
def writeSegments (lc : LC α) (kv : Kv) (docId : KvId) (parts : List Str) :
    List Bool × Kv :=
  useAtomics kv parts.enum
    (fun p => .set (segmentKeyOf lc docId p.1) (.segment p.2))

/-- `allFulfilled(keys.map((key) => this.kv.delete(key)))` — direct
deletes of the captured segment keys (src/src/large_collection.ts lines
309 and 340). -/
def deleteKeysDirect (kv : Kv) (keys : List KvKey) : Kv :=
  keys.foldl kvDeleteKey kv

/-- The segment-deleting pass of `LargeCollection.delete`
(src/src/large_collection.ts lines 180-183): one atomic `delete` per
listed segment id, batched by `useAtomics`. -/
def deleteSegments (lc : LC α) (kv : Kv) (id : KvId) (segIds : List KvId) : Kv :=
  (useAtomics kv segIds
    (fun segId => .del (extendKey lc.segmentSpaceKey [id, segId]))).2

/-- `LargeCollection.delete` for one id (src/src/large_collection.ts
lines 164-185; the variadic method runs this per id): read the manifest;
if absent, abort; otherwise delete the id-key first, then delete every
listed segment. -/
def deleteDoc (lc : LC α) (kv : Kv) (id : KvId) : Kv :=
  let idKey := docIdKeyOf lc id
  let p := kvGet kv idKey
  match p.1 with
  | none => p.2
  | some (v, _) =>
    if kvValTruthy v then
      deleteSegments lc (kvDeleteKey p.2 idKey) id (kvValIds v)
    else
      p.2

/-- The result of `setDocument`: `{ok:false}` or
`{ok:true, id, versionstamp}`. -/
inductive SetRes where
  | fail
  | ok (id : KvId) (versionstamp : Nat)
deriving DecidableEq, Repr

/-- The `ok` field of a `setDocument` result. -/
def SetRes.isOk : SetRes → Bool
  | .fail => false
  | .ok _ _ => true

/-- Outcome of one `setDocument` attempt: a final result, or a cleaned-up
failure that the retry logic may re-run. -/
inductive AttemptOut where
  | done (r : SetRes)
  | failedRetry
deriving DecidableEq, Repr

/-- The post-probe body of one `setDocument` attempt
(src/src/large_collection.ts lines 280-361): JSON-encode, slice into
`LARGE_COLLECTION_STRING_LIMIT`-sized parts, write the segments via
`useAtomics`, and on success commit the manifest `{ids}`; on any failure
delete every captured segment key and hand the decision to the retry
logic. -/
def setDocProceed (lc : LC α) (kv : Kv) (docId : KvId) (parsed : α) :
    AttemptOut × Kv :=
  let json := lc.stringify parsed
  let jsonParts := chunks LARGE_COLLECTION_STRING_LIMIT json
  let keys := segmentKeysOf lc docId jsonParts.length
  let idKey := docIdKeyOf lc docId
  let w := writeSegments lc kv docId jsonParts
  let success := decide (0 < w.1.length) && w.1.all (fun b => b)
  if success then
    let entryIds := keys.filterMap getDocumentId
    let m := kvAtomicCommit w.2 [.set idKey (.manifest entryIds)]
    if m.1 then
      (.done (.ok docId m.2.clock), m.2)
    else
      (.failedRetry, deleteKeysDirect m.2 keys)
  else
    (.failedRetry, deleteKeysDirect w.2 keys)

/-- One `setDocument` attempt including the id-probe
(src/src/large_collection.ts lines 258-278): commit a lone
`check({idKey, versionstamp: null})` atomic; if it fails and `overwrite`
is false return `{ok:false}`, if `overwrite` is true first run
`delete(docId)`; then run the post-probe body. -/
def setDocAttempt (lc : LC α) (kv : Kv) (docId : KvId) (parsed : α)
    (overwrite : Bool) : AttemptOut × Kv :=
  let idKey := docIdKeyOf lc docId
  let c := kvAtomicCommit kv [.check idKey none]
  if c.1 then
    setDocProceed lc c.2 docId parsed
  else if overwrite then
    setDocProceed lc (deleteDoc lc c.2 docId) docId parsed
  else
    (.done .fail, c.2)

/-- `LargeCollection.setDocument` (src/src/large_collection.ts lines
247-362): parse the value, resolve the id, run one attempt; a cleaned-up
failure recurses with `retry - 1` while `retry > 0` and otherwise
returns `{ok:false}` (the recursive call re-parses, exactly as the
source passes `parsed` back through `setDocument`). -/
def setDocument (lc : LC α) (kv : Kv) (id : Option KvId) (value : α)
    (retry : Nat) (overwrite : Bool) : SetRes × Kv :=
  let parsed := lc.mparse value
  let docId := id.getD (lc.idGen parsed)
  match setDocAttempt lc kv docId parsed overwrite with
  | (.done r, kv') => (r, kv')
  | (.failedRetry, kv') =>
    match retry with
    | 0 => (.fail, kv')
    | r + 1 => setDocument lc kv' (some docId) parsed r overwrite

/-- Ghost instrumentation: how many attempts the matching `setDocument`
run performs (same branching on the same states). -/
def setDocAttempts (lc : LC α) (kv : Kv) (id : Option KvId) (value : α)
    (retry : Nat) (overwrite : Bool) : Nat :=
  let parsed := lc.mparse value
  let docId := id.getD (lc.idGen parsed)
  match setDocAttempt lc kv docId parsed overwrite with
  | (.done _, _) => 1
  | (.failedRetry, kv') =>
    match retry with
    | 0 => 1
    | r + 1 => 1 + setDocAttempts lc kv' (some docId) parsed r overwrite

/-- The typed fatal corruption error of the read path
(src/src/errors.ts via src/src/large_collection.ts lines 381 and 399),
with its two message kinds. -/
inductive CorruptedDocumentDataError where
  | missingParts
  | badJson
deriving DecidableEq, Repr

/-- A returned document. -/
structure Doc (α : Type) where
  id : KvId
  value : α
  versionstamp : Nat
deriving DecidableEq, Repr

/-- `LargeCollection.constructLargeDocument`
(src/src/large_collection.ts lines 364-405): fetch every listed segment,
keep the truthy values (JS `entry.value ? ... : ...`), throw
`CorruptedDocumentDataError` if any entry was dropped, join the parts
and JSON-decode, throwing on decode failure. -/
def constructLargeDocument (lc : LC α) (kv : Kv) (id : KvId) (value : KvVal)
    (versionstamp : Nat) : Except CorruptedDocumentDataError (Doc α) × Kv :=
  let ids := kvValIds value
  let keys := ids.map (fun segId => extendKey lc.segmentSpaceKey [id, segId])
  let p := kvGetMany kv keys
  let jsonParts := p.1.foldl (fun parts entry =>
    match entry with
    | some (v, _) => if kvValTruthy v then parts ++ [kvValStr v] else parts
    | none => parts) []
  if jsonParts.length ≠ p.1.length then
    (.error .missingParts, p.2)
  else
    let json := jsonParts.flatten
    match lc.parse json with
    | some v => (.ok { id := id, value := v, versionstamp := versionstamp }, p.2)
    | none => (.error .badJson, p.2)

/-- `LargeCollection.find` (src/src/large_collection.ts lines 102-122):
fetch the manifest at the id-key; if absent return null, otherwise
construct the large document. -/
def findDoc (lc : LC α) (kv : Kv) (id : KvId) :
    Except CorruptedDocumentDataError (Option (Doc α)) × Kv :=
  let idKey := docIdKeyOf lc id
  let p := kvGet kv idKey
  match p.1 with
  | none => (.ok none, p.2)
  | some (v, vs) =>
    let q := constructLargeDocument lc p.2 id v vs
    match q.1 with
    | .ok d => (.ok (some d), q.2)
    | .error e => (.error e, q.2)

/-! ## Specification-side helpers and concrete fixtures -/

/-- The key a command acts on. -/
def opKeyOf : AtomicOp → KvKey
  | .check k _ => k
  | .set k _ => k
  | .del k => k

/-- Whether a command is a version check. -/
def isCheckOp : AtomicOp → Bool
  | .check _ _ => true
  | _ => false

/-- The net effect of a command list on one key: `none` if the key is
untouched, `some (some v)` if the last write sets it to `v`,
`some none` if the last write deletes it. -/
def writeEff : List AtomicOp → KvKey → Option (Option KvVal)
  | [], _ => none
  | op :: rest, k =>
    match writeEff rest k with
    | some x => some x
    | none =>
      match op with
      | .set k2 v => if k2 = k then some (some v) else none
      | .del k2 => if k2 = k then some none else none
      | .check _ _ => none

/-- Whether a read-path result is the corruption error. -/
def isCorruptErr : Except CorruptedDocumentDataError β → Bool
  | .error _ => true
  | .ok _ => false

/-- Specification-side view of a fetched segment entry: its string when
present and truthy, `none` when absent or falsy. -/
def entryStrOpt : Option (KvVal × Nat) → Option Str
  | some (v, _) => if kvValTruthy v then some (kvValStr v) else none
  | none => none

/-- Specification-side: is a truthy value stored at the key? -/
def segTruthyAt (kv : Kv) (k : KvKey) : Bool :=
  match storeVal kv.store k with
  | some v => kvValTruthy v
  | none => false

/-- Specification-side: the string stored at a segment key (empty when
absent). -/
def segStrAt (kv : Kv) (k : KvKey) : Str :=
  match storeVal kv.store k with
  | some v => kvValStr v
  | none => []

/-- All interference-oracle entries report success (no concurrent
writer invalidates a commit). -/
def oracleAllTrue (kv : Kv) : Bool :=
  kv.oracle.all (fun b => b)

/-- The empty store state used by concrete runs. -/
def kvEmpty : Kv :=
  { store := [], clock := 0, oracle := [], log := [] }

/-- A concrete large collection over `Nat` with an injective unary codec
(`stringify n` is `n+1` copies of 'a'), used to instantiate theorems on
concrete inputs. -/
def unaryLC : LC Nat :=
  { path := [.str "posts"]
    stringify := fun n => List.replicate (n + 1) 'a'
    parse := fun s =>
      if s ≠ [] ∧ s.all (fun c => c = 'a') then some (s.length - 1) else none
    mparse := fun n => n
    idGen := fun _ => .str "generated" }

/-- A concrete indexable collection with primary index on `email` and
secondary index on `role`. -/
def usersColl : Coll :=
  .indexable [.str "users"] ["email"] ["role"]

/-- A concrete healthy large-document store: a manifest listing segment 0
and a non-empty segment string. -/
def kvC5good : Kv :=
  { store := [(docIdKeyOf unaryLC (.str "doc"), .manifest [.num 0], 1),
              (segmentKeyOf unaryLC (.str "doc") 0, .segment ['a'], 2)]
    clock := 5
    oracle := []
    log := [] }

/-- A concrete large-document store whose manifest lists two segments,
both present, but segment 0 stores the empty string (falsy in JS). -/
def kvC5bad : Kv :=
  { store := [(docIdKeyOf unaryLC (.str "doc"), .manifest [.num 0, .num 1], 1),
              (segmentKeyOf unaryLC (.str "doc") 0, .segment [], 2),
              (segmentKeyOf unaryLC (.str "doc") 1, .segment ['a'], 3)]
    clock := 5
    oracle := []
    log := [] }

/-- A store whose interference oracle lets the first commit through and
fails the second (a concurrent writer invalidates the segment batch). -/
def kvC7 : Kv :=
  { store := [], clock := 0, oracle := [true, false], log := [] }

/-! ## Basic store and key lemmas -/

theorem storeGet_storeDel (s : StoreEntries) (k1 k : KvKey) :
    storeGet (storeDel s k1) k = if k1 = k then none else storeGet s k := by
  induction s with
  | nil => cases Decidable.em (k1 = k) <;> simp_all [storeDel, storeGet]
  | cons e rest ih =>
    by_cases h1 : e.1 = k1
    · by_cases h2 : k1 = k <;>
        simp_all [storeDel, storeGet, List.filter] <;> simp_all [storeDel]
    · by_cases h2 : e.1 = k
      · have : k1 ≠ k := fun h => h1 (h ▸ h2)
        simp_all [storeDel, storeGet, List.filter]
      · by_cases h3 : k1 = k <;> simp_all [storeDel, storeGet, List.filter]

theorem storeDel_of_absent (s : StoreEntries) (k : KvKey)
    (h : storeGet s k = none) : storeDel s k = s := by
  induction s with
  | nil => rfl
  | cons e rest ih =>
    simp only [storeGet] at h
    by_cases h1 : e.1 = k
    · simp [h1] at h
    · simp [h1] at h
      simp [storeDel, List.filter, h1] at ih ⊢
      exact ih h

theorem marker_eq_of_key_eq {p : KvKey} {a b : KvKeyPart} {xs ys : KvKey}
    (h : p ++ a :: xs = p ++ b :: ys) : a = b ∧ xs = ys := by
  have h2 := List.append_cancel_left h
  simpa using h2

/-! ## The effect of a committed batch on the store -/

theorem storeGet_foldl_applyOp (stamp : Nat) (ops : List AtomicOp) :
    ∀ (s : StoreEntries) (k : KvKey),
    storeGet (ops.foldl (applyOp stamp) s) k =
      match writeEff ops k with
      | some (some v) => some (v, stamp)
      | some none => none
      | none => storeGet s k := by
  induction ops with
  | nil => intro s k; rfl
  | cons op rest ih =>
    intro s k
    have step : List.foldl (applyOp stamp) s (op :: rest)
        = List.foldl (applyOp stamp) (applyOp stamp s op) rest := rfl
    rw [step, ih]
    cases hrest : writeEff rest k with
    | some x => simp only [writeEff, hrest]; cases x <;> simp
    | none =>
      cases op with
      | set k2 v =>
        by_cases hk : k2 = k <;> simp [writeEff, hrest, hk, applyOp, storeGet]
      | del k2 =>
        by_cases hk : k2 = k <;>
          simp [writeEff, hrest, hk, applyOp, storeGet_storeDel]
      | check k2 vs => simp [writeEff, hrest, applyOp]

theorem writeEff_append (a b : List AtomicOp) (k : KvKey) :
    writeEff (a ++ b) k =
      match writeEff b k with
      | some x => some x
      | none => writeEff a k := by
  induction a with
  | nil => cases h : writeEff b k <;> simp [writeEff, h]
  | cons op rest ih =>
    show (match writeEff (rest ++ b) k with
      | some x => some x
      | none =>
        match op with
        | .set k2 v => if k2 = k then some (some v) else none
        | .del k2 => if k2 = k then some none else none
        | .check _ _ => none) = _
    rw [ih]
    cases h : writeEff b k <;> cases h2 : writeEff rest k <;> simp [writeEff, h, h2]

theorem kvAtomicCommit_ok_store {kv : Kv} {ops : List AtomicOp}
    (h : (kvAtomicCommit kv ops).1 = true) :
    (kvAtomicCommit kv ops).2.store = ops.foldl (applyOp (kv.clock + 1)) kv.store := by
  have h2 : (ops.all (checkOk kv.store) && kv.oracle.headD true) = true := h
  simp only [kvAtomicCommit]
  rw [h2]
  simp

theorem kvAtomicCommit_fail_store {kv : Kv} {ops : List AtomicOp}
    (h : (kvAtomicCommit kv ops).1 = false) :
    (kvAtomicCommit kv ops).2.store = kv.store := by
  have h2 : (ops.all (checkOk kv.store) && kv.oracle.headD true) = false := h
  simp only [kvAtomicCommit]
  rw [h2]
  simp

theorem kvAtomicCommit_fail_of_check {kv : Kv} {ops : List AtomicOp}
    {k : KvKey} {vs : Option Nat} (hmem : AtomicOp.check k vs ∈ ops)
    (hbad : (storeGet kv.store k).map Prod.snd ≠ vs) :
    (kvAtomicCommit kv ops).1 = false := by
  simp only [kvAtomicCommit]
  have : ops.all (checkOk kv.store) = false := by
    rw [List.all_eq_false]
    exact ⟨_, hmem, by simp [checkOk, hbad]⟩
  simp [this]

theorem kvAtomicCommit_ok_of_checks {kv : Kv} {ops : List AtomicOp}
    (hcheck : ops.all (checkOk kv.store) = true)
    (horacle : kv.oracle.headD true = true) :
    (kvAtomicCommit kv ops).1 = true := by
  show (ops.all (checkOk kv.store) && kv.oracle.headD true) = true
  rw [hcheck, horacle]
  rfl

theorem kvAtomicCommit_clock_of_ok {kv : Kv} {ops : List AtomicOp}
    (h : (kvAtomicCommit kv ops).1 = true) :
    (kvAtomicCommit kv ops).2.clock = kv.clock + 1 := by
  have h2 : (ops.all (checkOk kv.store) && kv.oracle.headD true) = true := h
  simp only [kvAtomicCommit]
  rw [h2]
  simp

/-! ## Chunking lemmas -/

theorem chunksF_fuel_eq {limit : Nat} (hl : 1 ≤ limit) :
    ∀ (f1 f2 l : List β), l.length ≤ f1.length → l.length ≤ f2.length →
    chunksF limit f1 l = chunksF limit f2 l := by
  intro f1
  induction f1 with
  | nil =>
    intro f2 l h1 _
    have : l = [] := by
      cases l with
      | nil => rfl
      | cons a as => simp at h1
    subst this
    cases f2 <;> rfl
  | cons a f1t ih =>
    intro f2 l h1 h2
    cases l with
    | nil => cases f2 <;> rfl
    | cons x xs =>
      cases f2 with
      | nil => simp at h2
      | cons b f2t =>
        simp only [chunksF]
        have hd : ((x :: xs).drop limit).length ≤ xs.length := by
          simp only [List.length_drop, List.length_cons]
          omega
        have h1t : ((x :: xs).drop limit).length ≤ f1t.length := by
          simp only [List.length_cons] at h1
          omega
        have h2t : ((x :: xs).drop limit).length ≤ f2t.length := by
          simp only [List.length_cons] at h2
          omega
        rw [ih f2t _ h1t h2t]

theorem chunks_nil {limit : Nat} : chunks limit ([] : List β) = [] := rfl

theorem chunks_cons {limit : Nat} (hl : 1 ≤ limit) (x : β) (xs : List β) :
    chunks limit (x :: xs) =
      ((x :: xs).take limit) :: chunks limit ((x :: xs).drop limit) := by
  show chunksF limit (x :: xs) (x :: xs) = _
  simp only [chunksF]
  rw [chunksF_fuel_eq hl xs ((x :: xs).drop limit) _
    (by simp only [List.length_drop, List.length_cons]; omega) (le_refl _)]
  rfl

theorem chunksF_flatten {limit : Nat} (hl : 1 ≤ limit) :
    ∀ (fuel l : List β), l.length ≤ fuel.length →
    (chunksF limit fuel l).flatten = l := by
  intro fuel
  induction fuel with
  | nil =>
    intro l h
    have : l = [] := by cases l with
      | nil => rfl
      | cons a as => simp at h
    subst this; rfl
  | cons a ft ih =>
    intro l h
    cases l with
    | nil => rfl
    | cons x xs =>
      simp only [chunksF, List.flatten_cons]
      rw [ih _ (by simp only [List.length_drop, List.length_cons] at h ⊢; omega)]
      exact List.take_append_drop limit (x :: xs)

theorem chunks_flatten {limit : Nat} (hl : 1 ≤ limit) (l : List β) :
    (chunks limit l).flatten = l :=
  chunksF_flatten hl l l (le_refl _)

theorem chunksF_length {limit : Nat} (hl : 1 ≤ limit) :
    ∀ (fuel l : List β), l.length ≤ fuel.length →
    (chunksF limit fuel l).length = (l.length + limit - 1) / limit := by
  intro fuel
  induction fuel with
  | nil =>
    intro l h
    have : l = [] := by cases l with
      | nil => rfl
      | cons a as => simp at h
    subst this
    simp [chunksF, Nat.div_eq_of_lt (show limit - 1 < limit by omega)]
  | cons a ft ih =>
    intro l h
    cases l with
    | nil => simp [chunksF, Nat.div_eq_of_lt (show limit - 1 < limit by omega)]
    | cons x xs =>
      simp only [chunksF, List.length_cons]
      rw [ih _ (by simp only [List.length_drop, List.length_cons] at h ⊢; omega)]
      simp only [List.length_drop, List.length_cons]
      have hr : xs.length + 1 + limit - 1 = xs.length + limit := by omega
      rw [hr, Nat.add_div_right _ (by omega)]
      by_cases hc : limit ≤ xs.length + 1
      · have h2 : xs.length + 1 - limit + limit - 1 = xs.length := by omega
        rw [h2]
      · have h3 : (xs.length + 1 - limit + limit - 1) / limit = 0 :=
          Nat.div_eq_of_lt (by omega)
        have h4 : xs.length / limit = 0 := Nat.div_eq_of_lt (by omega)
        rw [h3, h4]

theorem chunks_length {limit : Nat} (hl : 1 ≤ limit) (l : List β) :
    (chunks limit l).length = (l.length + limit - 1) / limit :=
  chunksF_length hl l l (le_refl _)

theorem chunksF_ne_nil {limit : Nat} (hl : 1 ≤ limit) :
    ∀ (fuel l : List β), ∀ c ∈ chunksF limit fuel l, c ≠ [] := by
  intro fuel
  induction fuel with
  | nil => intro l c hc; simp [chunksF] at hc
  | cons a ft ih =>
    intro l c hc
    cases l with
    | nil => simp [chunksF] at hc
    | cons x xs =>
      simp only [chunksF, List.mem_cons] at hc
      rcases hc with hc | hc
      · subst hc
        obtain ⟨m, hm⟩ : ∃ m, limit = m + 1 := ⟨limit - 1, by omega⟩
        subst hm
        simp [List.take]
      · exact ih _ _ hc

theorem chunks_ne_nil {limit : Nat} (hl : 1 ≤ limit) (l : List β) :
    ∀ c ∈ chunks limit l, c ≠ [] :=
  chunksF_ne_nil hl l l

theorem chunksF_mem_length {limit : Nat} :
    ∀ (fuel l : List β), ∀ c ∈ chunksF limit fuel l, c.length ≤ limit := by
  intro fuel
  induction fuel with
  | nil => intro l c hc; simp [chunksF] at hc
  | cons a ft ih =>
    intro l c hc
    cases l with
    | nil => simp [chunksF] at hc
    | cons x xs =>
      simp only [chunksF, List.mem_cons] at hc
      rcases hc with hc | hc
      · subst hc
        exact List.length_take_le _ _
      · exact ih _ _ hc

theorem chunks_mem_length {limit : Nat} (l : List β) :
    ∀ c ∈ chunks limit l, c.length ≤ limit :=
  chunksF_mem_length l l

theorem chunks_length_pos {limit : Nat} (hl : 1 ≤ limit) (l : List β)
    (h : l ≠ []) : 0 < (chunks limit l).length := by
  cases l with
  | nil => exact absurd rfl h
  | cons x xs => rw [chunks_cons hl]; simp

theorem map_getD_range (l : List γ) (d : γ) :
    (List.range l.length).map (fun i => l.getD i d) = l := by
  induction l with
  | nil => rfl
  | cons x xs ih =>
    rw [List.length_cons, List.range_succ_eq_map, List.map_cons, List.map_map]
    have hcomp : ((fun i => (x :: xs).getD i d) ∘ Nat.succ) = (fun i => xs.getD i d) := by
      funext i
      simp [List.getD]
    rw [hcomp, ih]
    simp [List.getD]

/-! ## Batch sequences, oracle, and read-path lemmas -/

theorem storeVal_foldl_applyOp (stamp : Nat) (ops : List AtomicOp)
    (s : StoreEntries) (k : KvKey) :
    storeVal (ops.foldl (applyOp stamp) s) k =
      match writeEff ops k with
      | some (some v) => some v
      | some none => none
      | none => storeVal s k := by
  simp only [storeVal, storeGet_foldl_applyOp]
  cases h : writeEff ops k with
  | none => rfl
  | some x => cases x <;> rfl

theorem oracleAllTrue_headD {kv : Kv} (h : oracleAllTrue kv = true) :
    kv.oracle.headD true = true := by
  cases ho : kv.oracle with
  | nil => rfl
  | cons b t =>
    simp only [oracleAllTrue, ho, List.all_cons, Bool.and_eq_true] at h
    simp [h.1]

theorem kvAtomicCommit_oracle (kv : Kv) (ops : List AtomicOp) :
    (kvAtomicCommit kv ops).2.oracle = kv.oracle.tail := rfl

theorem oracleAllTrue_tail {kv : Kv} (h : oracleAllTrue kv = true)
    (kv2 : Kv) (h2 : kv2.oracle = kv.oracle.tail) : oracleAllTrue kv2 = true := by
  cases ho : kv.oracle with
  | nil => simp [oracleAllTrue, h2, ho]
  | cons b t =>
    simp only [oracleAllTrue, ho, List.all_cons, Bool.and_eq_true] at h
    simp [oracleAllTrue, h2, ho, h.2]

theorem all_checkOk_of_noChecks {ops : List AtomicOp}
    (h : ops.all (fun op => !isCheckOp op) = true) (s : StoreEntries) :
    ops.all (checkOk s) = true := by
  rw [List.all_eq_true] at h ⊢
  intro op hop
  have := h op hop
  cases op with
  | check k vs => simp [isCheckOp] at this
  | set k v => rfl
  | del k => rfl

theorem writeEff_no_set {ops : List AtomicOp}
    (h : ∀ k2 v, AtomicOp.set k2 v ∉ ops) (k : KvKey) :
    writeEff ops k = none ∨ writeEff ops k = some none := by
  induction ops with
  | nil => exact Or.inl rfl
  | cons op rest ih =>
    have hrest : ∀ k2 v, AtomicOp.set k2 v ∉ rest := by
      intro k2 v hmem
      exact h k2 v (List.mem_cons_of_mem _ hmem)
    rcases ih hrest with h2 | h2
    · cases op with
      | set k2 v => exact absurd (List.mem_cons_self _ _) (h k2 v)
      | del k2 =>
        by_cases hk : k2 = k <;> simp [writeEff, h2, hk]
      | check k2 vs => simp [writeEff, h2]
    · simp [writeEff, h2]

theorem commitBatches_length (kv : Kv) (bs : List (List AtomicOp)) :
    (commitBatches kv bs).1.length = bs.length := by
  induction bs generalizing kv with
  | nil => rfl
  | cons b rest ih => simp [commitBatches, ih]

theorem commitBatches_oracle_tail (kv : Kv) (bs : List (List AtomicOp)) :
    ∃ n, (commitBatches kv bs).2.oracle = kv.oracle.drop n := by
  induction bs generalizing kv with
  | nil => exact ⟨0, rfl⟩
  | cons b rest ih =>
    obtain ⟨n, hn⟩ := ih (kvAtomicCommit kv b).2
    refine ⟨n + 1, ?_⟩
    have hstep : List.drop n kv.oracle.tail = List.drop (n + 1) kv.oracle := by
      rw [← List.drop_one, List.drop_drop]
      congr 1
      omega
    show (commitBatches (kvAtomicCommit kv b).2 rest).2.oracle = _
    rw [hn, kvAtomicCommit_oracle, hstep]

theorem oracleAllTrue_drop {kv : Kv} (h : oracleAllTrue kv = true)
    (kv2 : Kv) (n : Nat) (h2 : kv2.oracle = kv.oracle.drop n) :
    oracleAllTrue kv2 = true := by
  simp only [oracleAllTrue, List.all_eq_true] at h ⊢
  intro b hb
  exact h b (List.mem_of_mem_drop (h2 ▸ hb))

theorem commitBatches_store_all_ok {bs : List (List AtomicOp)} :
    ∀ {kv : Kv}, ((commitBatches kv bs).1.all (fun x => x) = true) → ∀ (k : KvKey),
    storeVal (commitBatches kv bs).2.store k =
      match writeEff bs.flatten k with
      | some (some v) => some v
      | some none => none
      | none => storeVal kv.store k := by
  induction bs with
  | nil => intro kv _ k; rfl
  | cons b rest ih =>
    intro kv h k
    have hsplit : (kvAtomicCommit kv b).1 = true ∧
        ((commitBatches (kvAtomicCommit kv b).2 rest).1.all (fun x => x) = true) := by
      simpa [commitBatches, List.all_cons, Bool.and_eq_true] using h
    have hstep : (kvAtomicCommit kv b).2.store
        = b.foldl (applyOp (kv.clock + 1)) kv.store := kvAtomicCommit_ok_store hsplit.1
    have hrec := ih hsplit.2 k
    show storeVal (commitBatches (kvAtomicCommit kv b).2 rest).2.store k = _
    rw [hrec, hstep]
    rw [List.flatten_cons, writeEff_append]
    cases h1 : writeEff rest.flatten k with
    | some x =>
      cases x <;> simp
    | none =>
      rw [storeVal_foldl_applyOp]

theorem commitBatches_preserves_none {bs : List (List AtomicOp)} {k : KvKey}
    (hops : ∀ k2 v, AtomicOp.set k2 v ∉ bs.flatten) :
    ∀ {kv : Kv}, storeGet kv.store k = none →
    storeGet (commitBatches kv bs).2.store k = none := by
  induction bs with
  | nil => intro kv h; exact h
  | cons b rest ih =>
    intro kv h
    have hb : ∀ k2 v, AtomicOp.set k2 v ∉ b := by
      intro k2 v hmem
      exact hops k2 v (by rw [List.flatten_cons]; exact List.mem_append_left _ hmem)
    have hrest : ∀ k2 v, AtomicOp.set k2 v ∉ rest.flatten := by
      intro k2 v hmem
      exact hops k2 v (by rw [List.flatten_cons]; exact List.mem_append_right _ hmem)
    show storeGet (commitBatches (kvAtomicCommit kv b).2 rest).2.store k = none
    apply ih hrest
    cases hok : (kvAtomicCommit kv b).1 with
    | false => rw [kvAtomicCommit_fail_store hok]; exact h
    | true =>
      rw [kvAtomicCommit_ok_store hok]
      have hv := storeVal_foldl_applyOp (kv.clock + 1) b kv.store k
      have hval : storeVal (List.foldl (applyOp (kv.clock + 1)) kv.store b) k = none := by
        rcases writeEff_no_set hb k with h2 | h2 <;> rw [h2] at hv
        · rw [hv]
          simp [storeVal, h]
        · exact hv
      simpa [storeVal, Option.map_eq_none'] using hval

theorem commitBatches_all_ok_of {bs : List (List AtomicOp)}
    (hnc : ∀ b ∈ bs, b.all (fun op => !isCheckOp op) = true) :
    ∀ {kv : Kv}, oracleAllTrue kv = true →
    (commitBatches kv bs).1.all (fun x => x) = true := by
  induction bs with
  | nil => intro kv _; rfl
  | cons b rest ih =>
    intro kv h
    have hok : (kvAtomicCommit kv b).1 = true :=
      kvAtomicCommit_ok_of_checks
        (all_checkOk_of_noChecks (hnc b (List.mem_cons_self _ _)) _)
        (oracleAllTrue_headD h)
    have ht : oracleAllTrue (kvAtomicCommit kv b).2 = true :=
      oracleAllTrue_tail h _ (kvAtomicCommit_oracle kv b)
    have hrest := ih (fun b2 hb2 => hnc b2 (List.mem_cons_of_mem _ hb2)) ht
    simp [commitBatches, List.all_cons, hok, hrest]

theorem kvGet_store (kv : Kv) (k : KvKey) : (kvGet kv k).2.store = kv.store := rfl

theorem kvGetMany_store (kv : Kv) (ks : List KvKey) :
    (kvGetMany kv ks).2.store = kv.store := by
  induction ks generalizing kv with
  | nil => rfl
  | cons k rest ih => simp [kvGetMany, ih, kvGet_store]

theorem kvGetMany_fst (kv : Kv) (ks : List KvKey) :
    (kvGetMany kv ks).1 = ks.map (storeGet kv.store) := by
  induction ks generalizing kv with
  | nil => rfl
  | cons k rest ih => simp [kvGetMany, ih, kvGet, List.map_cons]

theorem deleteKeysDirect_preserves_none {keys : List KvKey} {k : KvKey} :
    ∀ {kv : Kv}, storeGet kv.store k = none →
    storeGet (deleteKeysDirect kv keys).store k = none := by
  induction keys with
  | nil => intro kv h; exact h
  | cons k0 rest ih =>
    intro kv h
    show storeGet (deleteKeysDirect (kvDeleteKey kv k0) rest).store k = none
    apply ih
    show storeGet (storeDel kv.store k0) k = none
    rw [storeGet_storeDel]
    by_cases hk : k0 = k <;> simp [hk, h]

theorem deleteKeysDirect_none {keys : List KvKey} {k : KvKey} :
    ∀ (kv : Kv), k ∈ keys → storeGet (deleteKeysDirect kv keys).store k = none := by
  induction keys with
  | nil => intro kv hmem; simp at hmem
  | cons k0 rest ih =>
    intro kv hmem
    rcases List.mem_cons.mp hmem with h | h
    · subst h
      show storeGet (deleteKeysDirect (kvDeleteKey kv k) rest).store k = none
      apply deleteKeysDirect_preserves_none
      show storeGet (storeDel kv.store k) k = none
      rw [storeGet_storeDel]
      simp
    · exact ih _ h

/-! ## Key namespace discrimination -/

theorem extend_marker_norm (path : KvKey) (m : KvKeyPart) (rest : KvKey) :
    extendKey (extendKey [kvdexRootPart] (path ++ [m])) rest
      = kvdexRootPart :: (path ++ (m :: rest)) := by
  simp [extendKey]

theorem marker_key_ne {path : KvKey} {m1 m2 : KvKeyPart} {r1 r2 : KvKey}
    (hm : m1 ≠ m2) :
    extendKey (extendKey [kvdexRootPart] (path ++ [m1])) r1
      ≠ extendKey (extendKey [kvdexRootPart] (path ++ [m2])) r2 := by
  intro h
  rw [extend_marker_norm, extend_marker_norm] at h
  have h2 := List.cons.inj h
  exact hm (marker_eq_of_key_eq h2.2).1

theorem marker_key_inj {path : KvKey} {m : KvKeyPart} {r1 r2 : KvKey}
    (h : extendKey (extendKey [kvdexRootPart] (path ++ [m])) r1
      = extendKey (extendKey [kvdexRootPart] (path ++ [m])) r2) : r1 = r2 := by
  rw [extend_marker_norm, extend_marker_norm] at h
  have h2 := List.cons.inj h
  exact (marker_eq_of_key_eq h2.2).2

theorem segmentKeyOf_inj {lc : LC α} {d : KvId} {i j : Nat}
    (h : segmentKeyOf lc d i = segmentKeyOf lc d j) : i = j := by
  have h2 := @marker_key_inj lc.path segmentMarkerPart _ _ h
  simp at h2
  exact h2

/-! ## writeEff on the builder's command fragments -/

theorem writeEff_pair (kx : KvKey) (v : KvVal) (k : KvKey) :
    writeEff [.set kx v, .check kx none] k
      = if kx = k then some (some v) else none := by
  by_cases h : kx = k <;> simp [writeEff, h]

theorem writeEff_flatMap_none {L : List γ} {g : γ → List AtomicOp} {k : KvKey}
    (h : ∀ x ∈ L, writeEff (g x) k = none) :
    writeEff (L.flatMap g) k = none := by
  induction L with
  | nil => rfl
  | cons x rest ih =>
    rw [List.flatMap_cons, writeEff_append,
      ih (fun y hy => h y (List.mem_cons_of_mem _ hy)),
      h x (List.mem_cons_self _ _)]

theorem writeEff_flatMap_shape {L : List γ} {g : γ → List AtomicOp} {k : KvKey}
    {w : KvVal}
    (h : ∀ x ∈ L, writeEff (g x) k = none ∨ writeEff (g x) k = some (some w)) :
    writeEff (L.flatMap g) k = none ∨ writeEff (L.flatMap g) k = some (some w) := by
  induction L with
  | nil => exact Or.inl rfl
  | cons x rest ih =>
    rw [List.flatMap_cons, writeEff_append]
    rcases ih (fun y hy => h y (List.mem_cons_of_mem _ hy)) with h2 | h2 <;>
      rw [h2]
    · rcases h x (List.mem_cons_self _ _) with h3 | h3 <;> simp [h3]
    · simp

theorem primaryIndexOps_fragment (pK : KvKey) (data : ModelData) (id : KvId)
    (index : String) (k : KvKey) :
    writeEff ((match lookupField data index with
      | none => ([] : List AtomicOp)
      | some indexValue =>
        [.set (extendKey pK [.str index, indexValue]) (.indexEntry data id),
         .check (extendKey pK [.str index, indexValue]) none]) ) k
      = none ∨
    writeEff ((match lookupField data index with
      | none => ([] : List AtomicOp)
      | some indexValue =>
        [.set (extendKey pK [.str index, indexValue]) (.indexEntry data id),
         .check (extendKey pK [.str index, indexValue]) none]) ) k
      = some (some (.indexEntry data id)) := by
  cases hl : lookupField data index with
  | none => exact Or.inl rfl
  | some v =>
    rw [writeEff_pair]
    by_cases hk : extendKey pK [.str index, v] = k <;> simp [hk]

theorem writeEff_primaryIndexOps_shape (pK : KvKey) (prim : List String)
    (data : ModelData) (id : KvId) (k : KvKey) :
    writeEff (primaryIndexOps pK prim data id) k = none ∨
    writeEff (primaryIndexOps pK prim data id) k
      = some (some (.indexEntry data id)) := by
  apply writeEff_flatMap_shape
  intro index _
  exact primaryIndexOps_fragment pK data id index k

theorem writeEff_base (idKey : KvKey) (v : KvVal) (k : KvKey) :
    writeEff [.check idKey none, .set idKey v] k
      = if idKey = k then some (some v) else none := by
  by_cases h : idKey = k <;> simp [writeEff, h]

theorem writeEff_primaryIndexOps_hit {pK : KvKey} {prim : List String}
    {data : ModelData} {id : KvId} {f : String} {w : KvId}
    (hf : f ∈ prim) (hw : lookupField data f = some w) :
    writeEff (primaryIndexOps pK prim data id) (extendKey pK [.str f, w])
      = some (some (.indexEntry data id)) := by
  induction prim with
  | nil => simp at hf
  | cons g rest ih =>
    simp only [primaryIndexOps, List.flatMap_cons]
    rw [writeEff_append]
    rcases List.mem_cons.mp hf with hfg | hfr
    · subst hfg
      rcases writeEff_primaryIndexOps_shape pK rest data id (extendKey pK [.str f, w])
        with h2 | h2 <;>
        simp only [primaryIndexOps] at h2 <;> rw [h2]
      rw [hw, writeEff_pair]
      simp
    · have h2 := ih hfr
      simp only [primaryIndexOps] at h2
      rw [h2]

theorem writeEff_secondaryIndexOps_ne {path : KvKey} {sec : List String}
    {data : ModelData} {id : KvId} {m : KvKeyPart} {r : KvKey}
    (hm : secondaryMarkerPart ≠ m) :
    writeEff
      (secondaryIndexOps (extendKey [kvdexRootPart] (path ++ [secondaryMarkerPart]))
        sec data id)
      (extendKey (extendKey [kvdexRootPart] (path ++ [m])) r) = none := by
  apply writeEff_flatMap_none
  intro index _
  cases hl : lookupField data index with
  | none => rfl
  | some v =>
    rw [writeEff_pair]
    have hne := @marker_key_ne path secondaryMarkerPart _ [KvKeyPart.str index, v, id] r hm
    simp [extendKey] at hne ⊢
    intro hcontra
    exact hne (by simpa [extendKey] using hcontra)

theorem writeEff_primaryIndexOps_ne {path : KvKey} {prim : List String}
    {data : ModelData} {id : KvId} {m : KvKeyPart} {r : KvKey}
    (hm : primaryMarkerPart ≠ m) :
    writeEff
      (primaryIndexOps (extendKey [kvdexRootPart] (path ++ [primaryMarkerPart]))
        prim data id)
      (extendKey (extendKey [kvdexRootPart] (path ++ [m])) r) = none := by
  apply writeEff_flatMap_none
  intro index _
  cases hl : lookupField data index with
  | none => rfl
  | some v =>
    rw [writeEff_pair]
    have hne := @marker_key_ne path primaryMarkerPart _ [KvKeyPart.str index, v] r hm
    simp [extendKey] at hne ⊢
    intro hcontra
    exact hne (by simpa [extendKey] using hcontra)

theorem primaryIndexOps_nil {pK : KvKey} {prim : List String} {data : ModelData}
    {id : KvId} (h : ∀ f ∈ prim, lookupField data f = none) :
    primaryIndexOps pK prim data id = [] := by
  induction prim with
  | nil => rfl
  | cons g rest ih =>
    simp only [primaryIndexOps, List.flatMap_cons]
    rw [h g (List.mem_cons_self _ _)]
    simp only [List.nil_append]
    exact ih (fun f hf => h f (List.mem_cons_of_mem _ hf))

theorem secondaryIndexOps_nil {sK : KvKey} {sec : List String} {data : ModelData}
    {id : KvId} (h : ∀ f ∈ sec, lookupField data f = none) :
    secondaryIndexOps sK sec data id = [] := by
  induction sec with
  | nil => rfl
  | cons g rest ih =>
    simp only [secondaryIndexOps, List.flatMap_cons]
    rw [h g (List.mem_cons_self _ _)]
    simp only [List.nil_append]
    exact ih (fun f hf => h f (List.mem_cons_of_mem _ hf))

/-! ## Builder state shape lemmas -/

theorem builderSet_shape (path : KvKey) (prim sec : List String) (id : KvId)
    (data : ModelData) :
    builderSet (.indexable path prim sec) id data emptyOperations =
      { atomicFns :=
          [.check (extendKey (Coll.collectionIdKey (.indexable path prim sec)) [id]) none,
           .set (extendKey (Coll.collectionIdKey (.indexable path prim sec)) [id])
             (.model data)]
          ++ primaryIndexOps
              (Coll.primaryCollectionIndexKey (.indexable path prim sec)) prim data id
          ++ secondaryIndexOps
              (Coll.secondaryCollectionIndexKey (.indexable path prim sec)) sec data id
        prepareDeleteFns := []
        indexDeleteCollectionKeys := []
        indexAddCollectionKeys :=
          [Coll.collectionIdKey (.indexable path prim sec)] } := by
  rfl

theorem builderAdd_eq_builderSet (c : Coll) (id : KvId) (data : ModelData)
    (ops : Operations) :
    builderAdd c id data ops = builderSet c id data ops := by
  cases c <;> rfl

theorem commitBuilder_add_like {kv : Kv} {ops : Operations}
    (hd : ops.indexDeleteCollectionKeys = [])
    (hp : ops.prepareDeleteFns = []) :
    commitBuilder kv ops = kvAtomicCommit kv ops.atomicFns := by
  simp only [commitBuilder, hd, hp]
  have hguard : (ops.indexAddCollectionKeys.any (fun addKey =>
      ([] : List KvKey).any (fun deleteKey => keyEq addKey deleteKey))) = false := by
    simp
  rw [hguard]
  simp only [runPrepares]
  cases h : (kvAtomicCommit kv ops.atomicFns).1 <;>
    simp only [h, runCleanups, Bool.false_eq_true, if_false, if_true] <;>
    rw [← h] <;>
    exact Prod.mk.eta

theorem mem_primaryIndexOps {pK : KvKey} {prim : List String} {data : ModelData}
    {id : KvId} {f : String} {w : KvId}
    (hf : f ∈ prim) (hw : lookupField data f = some w) :
    AtomicOp.set (extendKey pK [.str f, w]) (.indexEntry data id)
        ∈ primaryIndexOps pK prim data id
    ∧ AtomicOp.check (extendKey pK [.str f, w]) none
        ∈ primaryIndexOps pK prim data id := by
  constructor <;>
    · apply List.mem_flatMap.mpr
      refine ⟨f, hf, ?_⟩
      rw [hw]
      simp

theorem storeVal_after_indexable_set {path : KvKey} {prim sec : List String}
    {id : KvId} {data : ModelData} {kv kv1 : Kv} {f : String} {w : KvId}
    (hf : f ∈ prim) (hw : lookupField data f = some w)
    (hcommit : commitBuilder kv
      (builderSet (.indexable path prim sec) id data emptyOperations) = (true, kv1)) :
    storeVal kv1.store
      (extendKey (Coll.primaryCollectionIndexKey (.indexable path prim sec)) [.str f, w])
      = some (.indexEntry data id) := by
  rw [commitBuilder_add_like (by rw [builderSet_shape]) (by rw [builderSet_shape])]
    at hcommit
  have hok : (kvAtomicCommit kv
      (builderSet (.indexable path prim sec) id data emptyOperations).atomicFns).1
      = true := by rw [hcommit]
  have hkv1 : kv1 = (kvAtomicCommit kv
      (builderSet (.indexable path prim sec) id data emptyOperations).atomicFns).2 := by
    rw [hcommit]
  rw [hkv1, kvAtomicCommit_ok_store hok, storeVal_foldl_applyOp]
  have hfns : (builderSet (.indexable path prim sec) id data emptyOperations).atomicFns
      = ([.check (extendKey (Coll.collectionIdKey (.indexable path prim sec)) [id]) none,
          .set (extendKey (Coll.collectionIdKey (.indexable path prim sec)) [id])
            (.model data)]
         ++ primaryIndexOps
             (Coll.primaryCollectionIndexKey (.indexable path prim sec)) prim data id)
        ++ secondaryIndexOps
            (Coll.secondaryCollectionIndexKey (.indexable path prim sec)) sec data id := by
    rw [builderSet_shape]
  rw [hfns, writeEff_append]
  have hsec : writeEff
      (secondaryIndexOps (Coll.secondaryCollectionIndexKey (.indexable path prim sec))
        sec data id)
      (extendKey (Coll.primaryCollectionIndexKey (.indexable path prim sec)) [.str f, w])
      = none :=
    @writeEff_secondaryIndexOps_ne path sec data id primaryMarkerPart [.str f, w] (by decide)
  rw [hsec, writeEff_append]
  have hprim := @writeEff_primaryIndexOps_hit
    (Coll.primaryCollectionIndexKey (.indexable path prim sec)) prim data id f w hf hw
  rw [hprim]

/-- Claim C1: for an indexable collection with a primary index on field `f`,
two builder add/set operations whose values share the same defined value at
`f` both enqueue the primary-index `set` together with its
`versionstamp: null` check, and committing the second after the first has
committed returns `{ok:false}` and leaves the store contents unchanged. -/
theorem claimC1 {path : KvKey} {prim sec : List String} {f : String} {w : KvId}
    {id1 id2 : KvId} {d1 d2 : ModelData} {kv kv1 : Kv} {b1 b2 : Operations}
    (hf : f ∈ prim)
    (h1v : lookupField d1 f = some w) (h2v : lookupField d2 f = some w)
    (hb1 : b1 = builderAdd (.indexable path prim sec) id1 d1 emptyOperations
         ∨ b1 = builderSet (.indexable path prim sec) id1 d1 emptyOperations)
    (hb2 : b2 = builderAdd (.indexable path prim sec) id2 d2 emptyOperations
         ∨ b2 = builderSet (.indexable path prim sec) id2 d2 emptyOperations)
    (hcommit1 : commitBuilder kv b1 = (true, kv1)) :
    (AtomicOp.set
        (extendKey (Coll.primaryCollectionIndexKey (.indexable path prim sec))
          [.str f, w]) (.indexEntry d2 id2) ∈ b2.atomicFns
      ∧ AtomicOp.check
          (extendKey (Coll.primaryCollectionIndexKey (.indexable path prim sec))
            [.str f, w]) none ∈ b2.atomicFns)
    ∧ (commitBuilder kv1 b2).1 = false
    ∧ (commitBuilder kv1 b2).2.store = kv1.store := by
  have hb1s : b1 = builderSet (.indexable path prim sec) id1 d1 emptyOperations := by
    rcases hb1 with h | h
    · rw [h, builderAdd_eq_builderSet]
    · exact h
  have hb2s : b2 = builderSet (.indexable path prim sec) id2 d2 emptyOperations := by
    rcases hb2 with h | h
    · rw [h, builderAdd_eq_builderSet]
    · exact h
  subst hb1s
  subst hb2s
  have hval := storeVal_after_indexable_set hf h1v hcommit1
  have hmem := @mem_primaryIndexOps
    (Coll.primaryCollectionIndexKey (.indexable path prim sec)) prim d2 id2 f w hf h2v
  have hmems : AtomicOp.set
      (extendKey (Coll.primaryCollectionIndexKey (.indexable path prim sec)) [.str f, w])
      (.indexEntry d2 id2)
      ∈ (builderSet (.indexable path prim sec) id2 d2 emptyOperations).atomicFns := by
    rw [builderSet_shape]
    simp only [List.append_assoc, List.mem_append]
    exact Or.inr (Or.inl hmem.1)
  have hmemc : AtomicOp.check
      (extendKey (Coll.primaryCollectionIndexKey (.indexable path prim sec)) [.str f, w])
      none
      ∈ (builderSet (.indexable path prim sec) id2 d2 emptyOperations).atomicFns := by
    rw [builderSet_shape]
    simp only [List.append_assoc, List.mem_append]
    exact Or.inr (Or.inl hmem.2)
  obtain ⟨entry, hget, -⟩ := Option.map_eq_some'.mp hval
  have hbad : (storeGet kv1.store
      (extendKey (Coll.primaryCollectionIndexKey (.indexable path prim sec))
        [.str f, w])).map Prod.snd ≠ none := by
    rw [hget]
    simp
  have hcb : commitBuilder kv1
      (builderSet (.indexable path prim sec) id2 d2 emptyOperations)
      = kvAtomicCommit kv1
        (builderSet (.indexable path prim sec) id2 d2 emptyOperations).atomicFns :=
    commitBuilder_add_like (by rw [builderSet_shape]) (by rw [builderSet_shape])
  have hfail := @kvAtomicCommit_fail_of_check kv1 _ _ _ hmemc hbad
  refine ⟨⟨hmems, hmemc⟩, ?_, ?_⟩
  · rw [hcb]
    exact hfail
  · rw [hcb]
    exact kvAtomicCommit_fail_store hfail

/-- Claim C3: a builder whose accumulated operations mark the same
indexable collection (key codec equality) in both `indexAddCollectionKeys`
and `indexDeleteCollectionKeys` commits to `{ok:false}` with the store
state returned untouched: no prepare closure runs, no atomic batch is
submitted, and no event is logged. -/
theorem claimC3 {kv : Kv} {ops : Operations} {k1 k2 : KvKey}
    (h1 : k1 ∈ ops.indexAddCollectionKeys)
    (h2 : k2 ∈ ops.indexDeleteCollectionKeys)
    (heq : keyEq k1 k2 = true) :
    commitBuilder kv ops = (false, kv) := by
  simp only [commitBuilder]
  have hguard : ops.indexAddCollectionKeys.any (fun addKey =>
      ops.indexDeleteCollectionKeys.any (fun deleteKey => keyEq addKey deleteKey))
      = true := by
    rw [List.any_eq_true]
    refine ⟨k1, h1, ?_⟩
    rw [List.any_eq_true]
    exact ⟨k2, h2, heq⟩
  rw [hguard]
  simp

/-- Witness for claim C3 on a concrete builder that adds and deletes in
the same indexable collection. -/
theorem claimC3_witness :
    commitBuilder kvEmpty
      (builderDelete usersColl (.str "i1")
        (builderAdd usersColl (.str "i2") [("email", .str "x")] emptyOperations))
      = (false, kvEmpty) :=
  @claimC3 kvEmpty
    (builderDelete usersColl (.str "i1")
      (builderAdd usersColl (.str "i2") [("email", .str "x")] emptyOperations))
    (Coll.collectionIdKey usersColl) (Coll.collectionIdKey usersColl)
    (by decide) (by decide) (by decide)

theorem builderDelete_shape (path : KvKey) (prim sec : List String) (id : KvId) :
    builderDelete (.indexable path prim sec) id emptyOperations =
      { atomicFns :=
          [.del (extendKey (Coll.collectionIdKey (.indexable path prim sec)) [id])]
        prepareDeleteFns :=
          [{ idKey := extendKey (Coll.collectionIdKey (.indexable path prim sec)) [id]
             id := id
             primaryCollectionIndexKey :=
               Coll.primaryCollectionIndexKey (.indexable path prim sec)
             secondaryCollectionIndexKey :=
               Coll.secondaryCollectionIndexKey (.indexable path prim sec)
             primaryIndexList := prim
             secondaryIndexList := sec }]
        indexDeleteCollectionKeys := [Coll.collectionIdKey (.indexable path prim sec)]
        indexAddCollectionKeys := [] } := by
  rfl

theorem cleanupOps_of_empty_data {p : PreparedIndexDelete} (h : p.data = []) :
    cleanupOps p = [] := by
  have h1 : p.primaryIndexList.flatMap (fun index =>
      match lookupField p.data index with
      | none => ([] : List AtomicOp)
      | some indexValue =>
        [.del (extendKey p.primaryCollectionIndexKey [.str index, indexValue])]) = [] := by
    induction p.primaryIndexList with
    | nil => rfl
    | cons g rest ih => simp [h, lookupField, ih]
  have h2 : p.secondaryIndexList.flatMap (fun index =>
      match lookupField p.data index with
      | none => ([] : List AtomicOp)
      | some indexValue =>
        [.del (extendKey p.secondaryCollectionIndexKey [.str index, indexValue, p.id])]) = [] := by
    induction p.secondaryIndexList with
    | nil => rfl
    | cons g rest ih => simp [h, lookupField, ih]
  simp [cleanupOps, h1, h2]

theorem kvAtomicCommit_store_nil (kv : Kv) :
    (kvAtomicCommit kv []).2.store = kv.store := by
  simp only [kvAtomicCommit]
  cases h : (([] : List AtomicOp).all (checkOk kv.store) && kv.oracle.headD true) <;>
    simp [h]

/-- Claim C10: an indexable-collection `delete(id)` whose id-key is absent
when the prepare closure runs: the prepare substitutes the empty record for
the captured data, the main commit still succeeds (deleting the absent
id-key is accepted), and the post-commit cleanup atomic contains no index
deletes, so the store contents end up unchanged. -/
theorem claimC10 {path : KvKey} {prim sec : List String} {id : KvId} {kv : Kv}
    (habs : storeGet kv.store
      (extendKey (Coll.collectionIdKey (.indexable path prim sec)) [id]) = none)
    (horacle : oracleAllTrue kv = true) :
    (∀ p ∈ (runPrepares kv
        (builderDelete (.indexable path prim sec) id emptyOperations).prepareDeleteFns).1,
        p.data = [] ∧ cleanupOps p = [])
    ∧ (commitBuilder kv (builderDelete (.indexable path prim sec) id emptyOperations)).1
        = true
    ∧ (commitBuilder kv
        (builderDelete (.indexable path prim sec) id emptyOperations)).2.store
        = kv.store := by
  have hshape := builderDelete_shape path prim sec id
  have hprep1 : (runPrepares kv
      (builderDelete (.indexable path prim sec) id emptyOperations).prepareDeleteFns).1
      = [{ id := id
           data := []
           primaryCollectionIndexKey :=
             Coll.primaryCollectionIndexKey (.indexable path prim sec)
           secondaryCollectionIndexKey :=
             Coll.secondaryCollectionIndexKey (.indexable path prim sec)
           primaryIndexList := prim
           secondaryIndexList := sec }] := by
    rw [hshape]
    simp [runPrepares, runPrepare, kvGet, habs]
  have hprep2store : (runPrepares kv
      (builderDelete (.indexable path prim sec) id emptyOperations).prepareDeleteFns).2.store
      = kv.store := by
    rw [hshape]
    simp [runPrepares, runPrepare, kvGet]
  have hprep2oracle : (runPrepares kv
      (builderDelete (.indexable path prim sec) id emptyOperations).prepareDeleteFns).2.oracle
      = kv.oracle := by
    rw [hshape]
    simp [runPrepares, runPrepare, kvGet]
  have hok : (kvAtomicCommit
      (runPrepares kv
        (builderDelete (.indexable path prim sec) id emptyOperations).prepareDeleteFns).2
      (builderDelete (.indexable path prim sec) id emptyOperations).atomicFns).1 = true := by
    apply kvAtomicCommit_ok_of_checks
    · rw [hshape]
      rfl
    · rw [hprep2oracle]
      exact oracleAllTrue_headD horacle
  have hresstore : (kvAtomicCommit
      (runPrepares kv
        (builderDelete (.indexable path prim sec) id emptyOperations).prepareDeleteFns).2
      (builderDelete (.indexable path prim sec) id emptyOperations).atomicFns).2.store
      = kv.store := by
    rw [kvAtomicCommit_ok_store hok]
    rw [hshape]
    show storeDel (runPrepares kv
      (builderDelete (.indexable path prim sec) id emptyOperations).prepareDeleteFns).2.store
      (extendKey (Coll.collectionIdKey (.indexable path prim sec)) [id]) = kv.store
    rw [hprep2store]
    exact storeDel_of_absent _ _ habs
  refine ⟨?_, ?_, ?_⟩
  · intro p hp
    rw [hprep1] at hp
    rcases List.mem_singleton.mp hp with rfl
    exact ⟨rfl, cleanupOps_of_empty_data rfl⟩
  · simp only [commitBuilder]
    have hguard : ((builderDelete (.indexable path prim sec) id
        emptyOperations).indexAddCollectionKeys.any (fun addKey =>
          (builderDelete (.indexable path prim sec) id
            emptyOperations).indexDeleteCollectionKeys.any
            (fun deleteKey => keyEq addKey deleteKey))) = false := by
      rw [hshape]
      rfl
    rw [hguard]
    simp [hok]
  · simp only [commitBuilder]
    have hguard : ((builderDelete (.indexable path prim sec) id
        emptyOperations).indexAddCollectionKeys.any (fun addKey =>
          (builderDelete (.indexable path prim sec) id
            emptyOperations).indexDeleteCollectionKeys.any
            (fun deleteKey => keyEq addKey deleteKey))) = false := by
      rw [hshape]
      rfl
    rw [hguard]
    simp only [Bool.false_eq_true, if_false, hok, if_true]
    rw [hprep1]
    show (kvAtomicCommit _ (cleanupOps _)).2.store = kv.store
    rw [cleanupOps_of_empty_data rfl, kvAtomicCommit_store_nil]
    exact hresstore

/-- Witness for claim C10 on a concrete empty store. -/
theorem claimC10_witness :
    (commitBuilder kvEmpty
      (builderDelete usersColl (.str "gone") emptyOperations)).1 = true
    ∧ (commitBuilder kvEmpty
      (builderDelete usersColl (.str "gone") emptyOperations)).2.store = [] := by
  have h := @claimC10 [.str "users"] ["email"] ["role"] (.str "gone") kvEmpty
    (by decide) (by decide)
  exact ⟨h.2.1, h.2.2⟩

theorem opKeyOf_mem_primaryIndexOps {pK : KvKey} {prim : List String}
    {data : ModelData} {id : KvId} {op : AtomicOp}
    (hop : op ∈ primaryIndexOps pK prim data id) :
    ∃ g v, g ∈ prim ∧ lookupField data g = some v
      ∧ opKeyOf op = extendKey pK [.str g, v] := by
  rcases List.mem_flatMap.mp hop with ⟨g, hg, hmem⟩
  cases hl : lookupField data g with
  | none => rw [hl] at hmem; simp at hmem
  | some v =>
    rw [hl] at hmem
    refine ⟨g, v, hg, hl, ?_⟩
    rcases List.mem_cons.mp hmem with h | h
    · rw [h]; rfl
    · rcases List.mem_singleton.mp h with rfl
      rfl

theorem opKeyOf_mem_secondaryIndexOps {sK : KvKey} {sec : List String}
    {data : ModelData} {id : KvId} {op : AtomicOp}
    (hop : op ∈ secondaryIndexOps sK sec data id) :
    ∃ g v, g ∈ sec ∧ lookupField data g = some v
      ∧ opKeyOf op = extendKey sK [.str g, v, id] := by
  rcases List.mem_flatMap.mp hop with ⟨g, hg, hmem⟩
  cases hl : lookupField data g with
  | none => rw [hl] at hmem; simp at hmem
  | some v =>
    rw [hl] at hmem
    refine ⟨g, v, hg, hl, ?_⟩
    rcases List.mem_cons.mp hmem with h | h
    · rw [h]; rfl
    · rcases List.mem_singleton.mp h with rfl
      rfl

/-- Claim C9: index sparseness.  First part: an `add` on an indexable
collection enqueues no command (no index entry and no index check) whose
key lies under the primary or secondary index namespace of a field whose
value is undefined.  Second part: adding two documents whose indexed
fields are all undefined never collides on a primary index — with fresh
distinct ids both commits succeed. -/
theorem claimC9 :
    (∀ (path : KvKey) (prim sec : List String) (id : KvId) (data : ModelData)
      (f : String), (f ∈ prim ∨ f ∈ sec) → lookupField data f = none →
      ∀ op ∈ (builderAdd (.indexable path prim sec) id data emptyOperations).atomicFns,
        (∀ rest : KvKey, opKeyOf op ≠
          extendKey (Coll.primaryCollectionIndexKey (.indexable path prim sec))
            (.str f :: rest))
        ∧ (∀ rest : KvKey, opKeyOf op ≠
          extendKey (Coll.secondaryCollectionIndexKey (.indexable path prim sec))
            (.str f :: rest)))
    ∧ (∀ (path : KvKey) (prim sec : List String) (id1 id2 : KvId)
      (d1 d2 : ModelData) (kv : Kv),
      (∀ f ∈ prim, lookupField d1 f = none) →
      (∀ f ∈ sec, lookupField d1 f = none) →
      (∀ f ∈ prim, lookupField d2 f = none) →
      (∀ f ∈ sec, lookupField d2 f = none) →
      id1 ≠ id2 →
      storeGet kv.store
        (extendKey (Coll.collectionIdKey (.indexable path prim sec)) [id1]) = none →
      storeGet kv.store
        (extendKey (Coll.collectionIdKey (.indexable path prim sec)) [id2]) = none →
      oracleAllTrue kv = true →
      (commitBuilder kv
        (builderAdd (.indexable path prim sec) id1 d1 emptyOperations)).1 = true
      ∧ (commitBuilder
          (commitBuilder kv
            (builderAdd (.indexable path prim sec) id1 d1 emptyOperations)).2
          (builderAdd (.indexable path prim sec) id2 d2 emptyOperations)).1 = true) := by
  constructor
  · intro path prim sec id data f hf hundef op hop
    rw [builderAdd_eq_builderSet, builderSet_shape] at hop
    simp only [List.append_assoc, List.mem_append] at hop
    have hkeyform : (∃ r1 : KvKey, opKeyOf op
        = extendKey (extendKey [kvdexRootPart] (path ++ [idMarkerPart])) r1)
      ∨ (∃ g v r1, lookupField data g = some v ∧ (g : String) ∈ prim ∧ opKeyOf op
        = extendKey (extendKey [kvdexRootPart] (path ++ [primaryMarkerPart]))
            ((KvKeyPart.str g) :: r1))
      ∨ (∃ g v r1, lookupField data g = some v ∧ (g : String) ∈ sec ∧ opKeyOf op
        = extendKey (extendKey [kvdexRootPart] (path ++ [secondaryMarkerPart]))
            ((KvKeyPart.str g) :: r1)) := by
      rcases hop with h | h | h
      · rcases List.mem_cons.mp h with h2 | h2
        · exact Or.inl ⟨[id], by rw [h2]; rfl⟩
        · rcases List.mem_singleton.mp h2 with rfl
          exact Or.inl ⟨[id], rfl⟩
      · rcases opKeyOf_mem_primaryIndexOps h with ⟨g, v, hg, hl, hk⟩
        exact Or.inr (Or.inl ⟨g, v, [v], hl, hg, by rw [hk]; rfl⟩)
      · rcases opKeyOf_mem_secondaryIndexOps h with ⟨g, v, hg, hl, hk⟩
        exact Or.inr (Or.inr ⟨g, v, [v, id], hl, hg, by rw [hk]; rfl⟩)
    constructor
    · intro rest hcontra
      rcases hkeyform with ⟨r1, hk⟩ | ⟨g, v, r1, hl, hg, hk⟩ | ⟨g, v, r1, hl, hg, hk⟩
      · rw [hk] at hcontra
        exact @marker_key_ne path idMarkerPart primaryMarkerPart r1
          (KvKeyPart.str f :: rest) (by decide) hcontra
      · rw [hk] at hcontra
        have := @marker_key_inj path primaryMarkerPart (KvKeyPart.str g :: r1)
          (KvKeyPart.str f :: rest) hcontra
        have hgf : g = f := by
          have h2 := List.cons.inj this
          simpa using h2.1
        rw [hgf] at hl
        rw [hl] at hundef
        exact Option.noConfusion hundef
      · rw [hk] at hcontra
        exact @marker_key_ne path secondaryMarkerPart primaryMarkerPart
          (KvKeyPart.str g :: r1) (KvKeyPart.str f :: rest) (by decide) hcontra
    · intro rest hcontra
      rcases hkeyform with ⟨r1, hk⟩ | ⟨g, v, r1, hl, hg, hk⟩ | ⟨g, v, r1, hl, hg, hk⟩
      · rw [hk] at hcontra
        exact @marker_key_ne path idMarkerPart secondaryMarkerPart r1
          (KvKeyPart.str f :: rest) (by decide) hcontra
      · rw [hk] at hcontra
        exact @marker_key_ne path primaryMarkerPart secondaryMarkerPart
          (KvKeyPart.str g :: r1) (KvKeyPart.str f :: rest) (by decide) hcontra
      · rw [hk] at hcontra
        have := @marker_key_inj path secondaryMarkerPart (KvKeyPart.str g :: r1)
          (KvKeyPart.str f :: rest) hcontra
        have hgf : g = f := by
          have h2 := List.cons.inj this
          simpa using h2.1
        rw [hgf] at hl
        rw [hl] at hundef
        exact Option.noConfusion hundef
  · intro path prim sec id1 id2 d1 d2 kv h1p h1s h2p h2s hid hfresh1 hfresh2 horacle
    have hfns1 : (builderAdd (.indexable path prim sec) id1 d1 emptyOperations).atomicFns
        = [.check (extendKey (Coll.collectionIdKey (.indexable path prim sec)) [id1]) none,
           .set (extendKey (Coll.collectionIdKey (.indexable path prim sec)) [id1])
             (.model d1)] := by
      rw [builderAdd_eq_builderSet, builderSet_shape]
      simp [primaryIndexOps_nil h1p, secondaryIndexOps_nil h1s]
    have hfns2 : (builderAdd (.indexable path prim sec) id2 d2 emptyOperations).atomicFns
        = [.check (extendKey (Coll.collectionIdKey (.indexable path prim sec)) [id2]) none,
           .set (extendKey (Coll.collectionIdKey (.indexable path prim sec)) [id2])
             (.model d2)] := by
      rw [builderAdd_eq_builderSet, builderSet_shape]
      simp [primaryIndexOps_nil h2p, secondaryIndexOps_nil h2s]
    have hempty1 : (builderAdd (.indexable path prim sec) id1 d1
        emptyOperations).indexDeleteCollectionKeys = [] := by
      rw [builderAdd_eq_builderSet, builderSet_shape]
    have hemptyp1 : (builderAdd (.indexable path prim sec) id1 d1
        emptyOperations).prepareDeleteFns = [] := by
      rw [builderAdd_eq_builderSet, builderSet_shape]
    have hempty2 : (builderAdd (.indexable path prim sec) id2 d2
        emptyOperations).indexDeleteCollectionKeys = [] := by
      rw [builderAdd_eq_builderSet, builderSet_shape]
    have hemptyp2 : (builderAdd (.indexable path prim sec) id2 d2
        emptyOperations).prepareDeleteFns = [] := by
      rw [builderAdd_eq_builderSet, builderSet_shape]
    rw [commitBuilder_add_like hempty1 hemptyp1]
    have hcheck1 : ((builderAdd (.indexable path prim sec) id1 d1
        emptyOperations).atomicFns).all (checkOk kv.store) = true := by
      rw [hfns1]
      simp [checkOk, hfresh1]
    have hok1 : (kvAtomicCommit kv
        (builderAdd (.indexable path prim sec) id1 d1 emptyOperations).atomicFns).1
        = true :=
      kvAtomicCommit_ok_of_checks hcheck1 (oracleAllTrue_headD horacle)
    refine ⟨hok1, ?_⟩
    rw [commitBuilder_add_like hempty2 hemptyp2]
    have hne : extendKey (Coll.collectionIdKey (.indexable path prim sec)) [id1]
        ≠ extendKey (Coll.collectionIdKey (.indexable path prim sec)) [id2] := by
      intro hcontra
      have := @marker_key_inj path idMarkerPart [id1] [id2] hcontra
      have h2 := List.cons.inj this
      exact hid h2.1
    have hstore1 : (kvAtomicCommit kv
        (builderAdd (.indexable path prim sec) id1 d1 emptyOperations).atomicFns).2.store
        = (builderAdd (.indexable path prim sec) id1 d1
            emptyOperations).atomicFns.foldl (applyOp (kv.clock + 1)) kv.store :=
      kvAtomicCommit_ok_store hok1
    have hget2 : storeGet (kvAtomicCommit kv
        (builderAdd (.indexable path prim sec) id1 d1 emptyOperations).atomicFns).2.store
        (extendKey (Coll.collectionIdKey (.indexable path prim sec)) [id2]) = none := by
      rw [hstore1, storeGet_foldl_applyOp, hfns1]
      have heff : writeEff
          [.check (extendKey (Coll.collectionIdKey (.indexable path prim sec)) [id1]) none,
           .set (extendKey (Coll.collectionIdKey (.indexable path prim sec)) [id1])
             (.model d1)]
          (extendKey (Coll.collectionIdKey (.indexable path prim sec)) [id2]) = none := by
        rw [writeEff_base]
        simp [hne]
      rw [heff]
      exact hfresh2
    have hcheck2 : ((builderAdd (.indexable path prim sec) id2 d2
        emptyOperations).atomicFns).all (checkOk (kvAtomicCommit kv
          (builderAdd (.indexable path prim sec) id1 d1
            emptyOperations).atomicFns).2.store) = true := by
      rw [hfns2]
      simp [checkOk, hget2]
    apply kvAtomicCommit_ok_of_checks hcheck2
    apply oracleAllTrue_headD
    exact oracleAllTrue_tail horacle _ (kvAtomicCommit_oracle _ _)

/-- Witness for claim C9 at a concrete collection and documents with
undefined indexed fields. -/
theorem claimC9_witness :
    (commitBuilder kvEmpty
      (builderAdd usersColl (.str "i1") [("name", .str "a")] emptyOperations)).1 = true
    ∧ (commitBuilder
        (commitBuilder kvEmpty
          (builderAdd usersColl (.str "i1") [("name", .str "a")] emptyOperations)).2
        (builderAdd usersColl (.str "i2") [("name", .str "b")] emptyOperations)).1
        = true := by
  have h := claimC9.2 [.str "users"] ["email"] ["role"] (.str "i1") (.str "i2")
    [("name", .str "a")] [("name", .str "b")] kvEmpty
    (by decide) (by decide) (by decide) (by decide) (by decide)
    (by decide) (by decide) (by decide)
  exact h

/-- Witness for claim C1: concrete duplicate `email` value. -/
theorem claimC1_witness :
    (commitBuilder
      (commitBuilder kvEmpty
        (builderSet usersColl (.str "i1") [("email", .str "x")] emptyOperations)).2
      (builderSet usersColl (.str "i2")
        [("email", .str "x"), ("role", .str "admin")] emptyOperations)).1 = false := by
  have h := @claimC1 [.str "users"] ["email"] ["role"] "email" (.str "x")
    (.str "i1") (.str "i2")
    [("email", .str "x")] [("email", .str "x"), ("role", .str "admin")]
    kvEmpty
    (commitBuilder kvEmpty
      (builderSet usersColl (.str "i1") [("email", .str "x")] emptyOperations)).2
    (builderSet usersColl (.str "i1") [("email", .str "x")] emptyOperations)
    (builderSet usersColl (.str "i2")
      [("email", .str "x"), ("role", .str "admin")] emptyOperations)
    (by decide) (by decide) (by decide) (Or.inr rfl) (Or.inr rfl) (by decide)
  exact h.2.1

/-! ## Segment-write characterization -/

theorem writeEff_segSets_lt {lc : LC α} {docId : KvId} :
    ∀ (parts : List Str) (n m : Nat), m < n →
    writeEff ((List.enumFrom n parts).map
      (fun p => AtomicOp.set (segmentKeyOf lc docId p.1) (.segment p.2)))
      (segmentKeyOf lc docId m) = none := by
  intro parts
  induction parts with
  | nil => intro n m _; rfl
  | cons s rest ih =>
    intro n m hm
    have hrest := ih (n + 1) m (by omega)
    have hne : segmentKeyOf lc docId n ≠ segmentKeyOf lc docId m := by
      intro hcontra
      have := segmentKeyOf_inj hcontra
      omega
    simp only [List.enumFrom, List.map_cons, writeEff, hrest]
    simp [hne]

theorem writeEff_segSets_hit {lc : LC α} {docId : KvId} :
    ∀ (parts : List Str) (n i : Nat), i < parts.length →
    writeEff ((List.enumFrom n parts).map
      (fun p => AtomicOp.set (segmentKeyOf lc docId p.1) (.segment p.2)))
      (segmentKeyOf lc docId (n + i))
      = some (some (.segment (parts.getD i []))) := by
  intro parts
  induction parts with
  | nil => intro n i h; simp at h
  | cons s rest ih =>
    intro n i h
    cases i with
    | zero =>
      have hrest : writeEff ((List.enumFrom (n + 1) rest).map
          (fun p => AtomicOp.set (segmentKeyOf lc docId p.1) (.segment p.2)))
          (segmentKeyOf lc docId (n + 0)) = none :=
        writeEff_segSets_lt rest (n + 1) (n + 0) (by omega)
      simp only [List.enumFrom, List.map_cons, writeEff, hrest]
      simp [List.getD]
    | succ j =>
      have hn : n + (j + 1) = (n + 1) + j := by omega
      rw [hn]
      have hrec := ih (n + 1) j (by simpa using h)
      simp only [List.enumFrom, List.map_cons, writeEff, hrec]
      simp [List.getD]

theorem useAtomics_length (kv : Kv) (elems : List β) (fn : β → AtomicOp) :
    (useAtomics kv elems fn).1.length
      = (chunks ATOMIC_OPERATION_LIMIT elems).length := by
  show (commitBatches kv _).1.length = _
  rw [commitBatches_length, List.length_map]

theorem useAtomics_store_all_ok {kv : Kv} {elems : List β} {fn : β → AtomicOp}
    (h : (useAtomics kv elems fn).1.all (fun x => x) = true) (k : KvKey) :
    storeVal (useAtomics kv elems fn).2.store k =
      match writeEff (elems.map fn) k with
      | some (some v) => some v
      | some none => none
      | none => storeVal kv.store k := by
  have hbase := @commitBatches_store_all_ok
    ((chunks ATOMIC_OPERATION_LIMIT elems).map (List.map fn)) kv h k
  have hflat : ((chunks ATOMIC_OPERATION_LIMIT elems).map (List.map fn)).flatten
      = elems.map fn := by
    rw [← List.map_flatten, chunks_flatten (by simp [ATOMIC_OPERATION_LIMIT])]
  rw [hflat] at hbase
  exact hbase

theorem useAtomics_ne_nil_of_pos {kv : Kv} {elems : List β} {fn : β → AtomicOp}
    (h : 0 < (useAtomics kv elems fn).1.length) : elems ≠ [] := by
  intro hcontra
  subst hcontra
  simp [useAtomics, chunks_nil, commitBatches] at h

theorem useAtomics_oracle_drop (kv : Kv) (elems : List β) (fn : β → AtomicOp) :
    ∃ n, (useAtomics kv elems fn).2.oracle = kv.oracle.drop n :=
  commitBatches_oracle_tail kv _

theorem segmentKeysOf_filterMap (lc : LC α) (docId : KvId) (n : Nat) :
    (segmentKeysOf lc docId n).filterMap getDocumentId
      = (List.range n).map KvKeyPart.num := by
  have hlast : ∀ i, getDocumentId (segmentKeyOf lc docId i) = some (.num i) := by
    intro i
    show (lc.segmentSpaceKey ++ [docId, KvKeyPart.num i]).getLast? = _
    rw [show lc.segmentSpaceKey ++ [docId, KvKeyPart.num i]
      = (lc.segmentSpaceKey ++ [docId]) ++ [KvKeyPart.num i] from by simp]
    rw [List.getLast?_concat]
  have hgen : ∀ (L : List Nat),
      (L.map (segmentKeyOf lc docId)).filterMap getDocumentId
        = L.map KvKeyPart.num := by
    intro L
    induction L with
    | nil => rfl
    | cons i rest ih =>
      simp only [List.map_cons, List.filterMap_cons, hlast, ih]
  exact hgen (List.range n)

theorem writeEff_single_set (k2 : KvKey) (v : KvVal) (k : KvKey) :
    writeEff [.set k2 v] k = if k2 = k then some (some v) else none := by
  by_cases h : k2 = k <;> simp [writeEff, h]

theorem setDocProceed_ok {lc : LC α} {kv0 : Kv} {docId : KvId} {parsed : α}
    {r : SetRes} {kvF : Kv}
    (h : setDocProceed lc kv0 docId parsed = (.done r, kvF)) :
    r = .ok docId kvF.clock ∧
    storeVal kvF.store (docIdKeyOf lc docId)
      = some (.manifest ((List.range
          (chunks LARGE_COLLECTION_STRING_LIMIT (lc.stringify parsed)).length).map
          KvKeyPart.num))
    ∧ ∀ i < (chunks LARGE_COLLECTION_STRING_LIMIT (lc.stringify parsed)).length,
        storeVal kvF.store (segmentKeyOf lc docId i)
          = some (.segment
              ((chunks LARGE_COLLECTION_STRING_LIMIT (lc.stringify parsed)).getD i [])) := by
  simp only [setDocProceed] at h
  split at h
  case isFalse hsuc =>
    rw [Prod.mk.injEq] at h
    exact absurd h.1 (by intro hcontra; exact AttemptOut.noConfusion hcontra)
  case isTrue hsuc =>
    split at h
    case isFalse hmok =>
      rw [Prod.mk.injEq] at h
      exact absurd h.1 (by intro hcontra; exact AttemptOut.noConfusion hcontra)
    case isTrue hmok =>
      rw [Prod.mk.injEq] at h
      obtain ⟨hr, hkv⟩ := h
      injection hr with hr2
      subst hkv
      have hall : (writeSegments lc kv0 docId
          (chunks LARGE_COLLECTION_STRING_LIMIT (lc.stringify parsed))).1.all
          (fun b => b) = true := by
        have h2 := hsuc
        rw [Bool.and_eq_true] at h2
        exact h2.2
      have hmst := kvAtomicCommit_ok_store hmok
      have hmcl := kvAtomicCommit_clock_of_ok hmok
      refine ⟨?_, ?_, ?_⟩
      · rw [← hr2]
      · rw [hmst, storeVal_foldl_applyOp, writeEff_single_set, segmentKeysOf_filterMap]
        simp
      · intro i hi
        rw [hmst, storeVal_foldl_applyOp, writeEff_single_set]
        have hne : docIdKeyOf lc docId ≠ segmentKeyOf lc docId i :=
          @marker_key_ne lc.path idMarkerPart segmentMarkerPart [docId]
            [docId, KvKeyPart.num i] (by decide)
        rw [if_neg hne]
        have hseg := @useAtomics_store_all_ok _ kv0
          ((chunks LARGE_COLLECTION_STRING_LIMIT (lc.stringify parsed)).enum)
          (fun p => AtomicOp.set (segmentKeyOf lc docId p.1) (.segment p.2))
          hall (segmentKeyOf lc docId i)
        have heff : writeEff
            (((chunks LARGE_COLLECTION_STRING_LIMIT (lc.stringify parsed)).enum).map
              (fun p => AtomicOp.set (segmentKeyOf lc docId p.1) (.segment p.2)))
            (segmentKeyOf lc docId i)
            = some (some (.segment
                ((chunks LARGE_COLLECTION_STRING_LIMIT (lc.stringify parsed)).getD i []))) := by
          have := @writeEff_segSets_hit _ lc docId
            (chunks LARGE_COLLECTION_STRING_LIMIT (lc.stringify parsed)) 0 i hi
          simpa [List.enum] using this
        rw [heff] at hseg
        exact hseg

theorem setDocAttempt_ok {lc : LC α} {kv : Kv} {docId : KvId} {parsed : α}
    {ow : Bool} {r : SetRes} {kvF : Kv}
    (h : setDocAttempt lc kv docId parsed ow = (.done r, kvF))
    (hok : r.isOk = true) :
    r = .ok docId kvF.clock ∧
    storeVal kvF.store (docIdKeyOf lc docId)
      = some (.manifest ((List.range
          (chunks LARGE_COLLECTION_STRING_LIMIT (lc.stringify parsed)).length).map
          KvKeyPart.num))
    ∧ ∀ i < (chunks LARGE_COLLECTION_STRING_LIMIT (lc.stringify parsed)).length,
        storeVal kvF.store (segmentKeyOf lc docId i)
          = some (.segment
              ((chunks LARGE_COLLECTION_STRING_LIMIT (lc.stringify parsed)).getD i [])) := by
  simp only [setDocAttempt] at h
  split at h
  case isTrue hchk => exact setDocProceed_ok h
  case isFalse hchk =>
    split at h
    case isTrue how => exact setDocProceed_ok h
    case isFalse how =>
      rw [Prod.mk.injEq] at h
      injection h.1 with h2
      rw [← h2] at hok
      simp [SetRes.isOk] at hok

theorem setDocument_unfold_some (lc : LC α) (kv : Kv) (d0 : KvId) (value : α)
    (retry : Nat) (ow : Bool) :
    setDocument lc kv (some d0) value retry ow =
      match setDocAttempt lc kv d0 (lc.mparse value) ow with
      | (.done r, kv2) => (r, kv2)
      | (.failedRetry, kv2) =>
        match retry with
        | 0 => (.fail, kv2)
        | r + 1 => setDocument lc kv2 (some d0) (lc.mparse value) r ow := by
  cases retry with
  | zero =>
    unfold setDocument
    rfl
  | succ n =>
    conv_lhs => unfold setDocument
    rfl

theorem setDocument_ok_state {lc : LC α} {ow : Bool}
    (hidem : ∀ x, lc.mparse (lc.mparse x) = lc.mparse x) :
    ∀ (retry : Nat) (kv : Kv) (value : α) (d0 d : KvId) (st : Nat) (kv' : Kv),
    setDocument lc kv (some d0) value retry ow = (.ok d st, kv') →
    d = d0
    ∧ storeVal kv'.store (docIdKeyOf lc d0)
      = some (.manifest ((List.range
          (chunks LARGE_COLLECTION_STRING_LIMIT (lc.stringify (lc.mparse value))).length).map
          KvKeyPart.num))
    ∧ ∀ i < (chunks LARGE_COLLECTION_STRING_LIMIT
          (lc.stringify (lc.mparse value))).length,
        storeVal kv'.store (segmentKeyOf lc d0 i)
          = some (.segment ((chunks LARGE_COLLECTION_STRING_LIMIT
              (lc.stringify (lc.mparse value))).getD i [])) := by
  intro retry
  induction retry with
  | zero =>
    intro kv value d0 d st kv' h
    cases ha : setDocAttempt lc kv d0 (lc.mparse value) ow with
    | mk out kvA =>
      cases out with
      | done rr =>
        have hh : setDocument lc kv (some d0) value 0 ow = (rr, kvA) := by
          rw [setDocument_unfold_some, ha]
        rw [hh, Prod.mk.injEq] at h
        obtain ⟨h1, h2⟩ := h
        subst h2
        have hfacts := setDocAttempt_ok ha (by rw [h1]; rfl)
        refine ⟨?_, hfacts.2.1, hfacts.2.2⟩
        rw [h1] at hfacts
        injection hfacts.1 with hd hst
      | failedRetry =>
        have hh : setDocument lc kv (some d0) value 0 ow = (.fail, kvA) := by
          rw [setDocument_unfold_some, ha]
        rw [hh, Prod.mk.injEq] at h
        exact absurd h.1 (by intro hc; exact SetRes.noConfusion hc)
  | succ rr ih =>
    intro kv value d0 d st kv' h
    cases ha : setDocAttempt lc kv d0 (lc.mparse value) ow with
    | mk out kvA =>
      cases out with
      | done rrr =>
        have hh : setDocument lc kv (some d0) value (rr + 1) ow = (rrr, kvA) := by
          rw [setDocument_unfold_some, ha]
        rw [hh, Prod.mk.injEq] at h
        obtain ⟨h1, h2⟩ := h
        subst h2
        have hfacts := setDocAttempt_ok ha (by rw [h1]; rfl)
        refine ⟨?_, hfacts.2.1, hfacts.2.2⟩
        rw [h1] at hfacts
        injection hfacts.1 with hd hst
      | failedRetry =>
        have hh : setDocument lc kv (some d0) value (rr + 1) ow
            = setDocument lc kvA (some d0) (lc.mparse value) rr ow := by
          rw [setDocument_unfold_some, ha]
        rw [hh] at h
        have hrec := ih kvA (lc.mparse value) d0 d st kv' h
        rw [hidem value] at hrec
        exact hrec

/-! ## Read-path analysis -/

theorem jsonPartsFold_eq (entries : List (Option (KvVal × Nat))) :
    ∀ acc : List Str,
    entries.foldl (fun parts entry =>
      match entry with
      | some (v, _) => if kvValTruthy v then parts ++ [kvValStr v] else parts
      | none => parts) acc
    = acc ++ (entries.map entryStrOpt).reduceOption := by
  induction entries with
  | nil => intro acc; simp
  | cons e rest ih =>
    intro acc
    rw [List.foldl_cons, ih]
    cases e with
    | none => simp [entryStrOpt, List.reduceOption]
    | some p =>
      obtain ⟨v, stv⟩ := p
      by_cases ht : kvValTruthy v = true
      · simp [entryStrOpt, ht, List.reduceOption]
      · rw [Bool.not_eq_true] at ht
        simp [entryStrOpt, ht, List.reduceOption]

theorem reduceOption_map_some {L : List γ} {g : γ → Str} :
    (L.map (fun i => some (g i))).reduceOption = L.map g := by
  induction L with
  | nil => rfl
  | cons x rest ih => simp [List.reduceOption, List.filterMap_cons] at ih ⊢; exact ih

theorem constructLargeDocument_good {lc : LC α} {kv : Kv} {id : KvId}
    {n : Nat} {chunksL : List Str} {st : Nat} {w : α}
    (hn : n = chunksL.length)
    (hsegs : ∀ i < n, storeVal kv.store (segmentKeyOf lc id i)
      = some (.segment (chunksL.getD i [])))
    (hne : ∀ c ∈ chunksL, c ≠ [])
    (hparse : lc.parse chunksL.flatten = some w) :
    (constructLargeDocument lc kv id
      (.manifest ((List.range n).map KvKeyPart.num)) st).1
      = .ok { id := id, value := w, versionstamp := st } := by
  simp only [constructLargeDocument, kvValIds]
  have hkeys : ((List.range n).map KvKeyPart.num).map
      (fun segId => extendKey lc.segmentSpaceKey [id, segId])
      = (List.range n).map (segmentKeyOf lc id) := by
    rw [List.map_map]
    rfl
  rw [hkeys, kvGetMany_fst]
  have hentries : ((List.range n).map (segmentKeyOf lc id)).map (storeGet kv.store)
      = (List.range n).map (fun i => storeGet kv.store (segmentKeyOf lc id i)) := by
    rw [List.map_map]
    rfl
  rw [hentries]
  have hpointwise : ∀ i ∈ List.range n,
      entryStrOpt (storeGet kv.store (segmentKeyOf lc id i))
        = some (chunksL.getD i []) := by
    intro i hi
    have hilt : i < n := List.mem_range.mp hi
    have hval := hsegs i hilt
    obtain ⟨⟨vv, stt⟩, hg, hfst⟩ := Option.map_eq_some'.mp hval
    simp only at hfst
    subst hfst
    rw [hg]
    have hcne : chunksL.getD i [] ≠ [] := by
      apply hne
      have hlen : i < chunksL.length := hn ▸ hilt
      rw [List.getD_eq_getElem _ _ hlen]
      exact List.getElem_mem _
    simp only [entryStrOpt]
    have htru : kvValTruthy (.segment (chunksL.getD i [])) = true := by
      cases hc : chunksL.getD i [] with
      | nil => exact absurd hc hcne
      | cons a as => rfl
    rw [htru]
    simp [kvValStr]
  have hmapstr : ((List.range n).map
        (fun i => storeGet kv.store (segmentKeyOf lc id i))).map entryStrOpt
      = (List.range n).map (fun i => some (chunksL.getD i [])) := by
    rw [List.map_map]
    exact List.map_congr_left hpointwise
  rw [jsonPartsFold_eq, List.nil_append, hmapstr, reduceOption_map_some]
  have hgetd : (List.range n).map (fun i => chunksL.getD i []) = chunksL := by
    rw [hn]
    exact map_getD_range chunksL []
  rw [hgetd]
  have hlen2 : chunksL.length = ((List.range n).map
      (fun i => storeGet kv.store (segmentKeyOf lc id i))).length := by
    simp [hn]
  rw [if_neg (by rw [← hlen2]; exact fun hc => hc rfl)]
  rw [hparse]

/-- Claim C2: a successful `setDocument(id, v)` followed by `find(id)`
returns a document whose value is the model-normalized `v`: the segments
are re-fetched in manifest order, concatenated and decoded back.
Hypotheses: the model normalizer is idempotent, the JSON codec
round-trips on the normalized value, and its encoding is non-empty. -/
theorem claimC2 {lc : LC α} {kv kv' : Kv} {id : KvId} {v : α} {retry : Nat}
    {ow : Bool} {d : KvId} {st : Nat}
    (hidem : ∀ x, lc.mparse (lc.mparse x) = lc.mparse x)
    (hrt : lc.parse (lc.stringify (lc.mparse v)) = some (lc.mparse v))
    (hnev : lc.stringify (lc.mparse v) ≠ [])
    (h : setDocument lc kv (some id) v retry ow = (.ok d st, kv')) :
    ∃ st2, (findDoc lc kv' id).1
      = .ok (some { id := id, value := lc.mparse v, versionstamp := st2 }) := by
  obtain ⟨hd, hman, hsegs⟩ := setDocument_ok_state hidem retry kv v id d st kv' h
  obtain ⟨⟨mv, st2⟩, hget, hfst⟩ := Option.map_eq_some'.mp hman
  simp only at hfst
  subst hfst
  refine ⟨st2, ?_⟩
  have hlim : 1 ≤ LARGE_COLLECTION_STRING_LIMIT := by decide
  have hcon := @constructLargeDocument_good _ lc
    { kv' with log := .getE (docIdKeyOf lc id) :: kv'.log } id
    ((chunks LARGE_COLLECTION_STRING_LIMIT (lc.stringify (lc.mparse v))).length)
    (chunks LARGE_COLLECTION_STRING_LIMIT (lc.stringify (lc.mparse v)))
    st2 (lc.mparse v)
    rfl hsegs (chunks_ne_nil hlim _)
    (by rw [chunks_flatten hlim]; exact hrt)
  simp only [findDoc, kvGet]
  rw [hget]
  simp only []
  rw [hcon]

/-- Witness for claim C2 with the concrete unary codec over `Nat`. -/
theorem claimC2_witness :
    ∃ st2, (findDoc unaryLC
      (setDocument unaryLC kvEmpty (some (.str "d")) 2 0 false).2 (.str "d")).1
      = .ok (some { id := .str "d", value := 2, versionstamp := st2 }) :=
  claimC2 (fun _ => rfl) (by decide) (by decide)
    (show setDocument unaryLC kvEmpty (some (.str "d")) 2 0 false
      = (SetRes.ok (.str "d") 3,
         (setDocument unaryLC kvEmpty (some (.str "d")) 2 0 false).2) from rfl)

/-- Claim C4: a successful `setDocument` of a value with JSON length
`n > 0` writes exactly `ceil(n / LARGE_COLLECTION_STRING_LIMIT)` segment
keys carrying consecutive indices starting at 0, each chunk at most the
string limit, whose concatenation is the JSON encoding, and the manifest
at the id-key lists exactly those indices in order. -/
theorem claimC4 {lc : LC α} {kv kv' : Kv} {id : KvId} {v : α} {retry : Nat}
    {ow : Bool} {d : KvId} {st : Nat}
    (hidem : ∀ x, lc.mparse (lc.mparse x) = lc.mparse x)
    (hnev : lc.stringify (lc.mparse v) ≠ [])
    (h : setDocument lc kv (some id) v retry ow = (.ok d st, kv')) :
    (chunks LARGE_COLLECTION_STRING_LIMIT (lc.stringify (lc.mparse v))).length
      = ((lc.stringify (lc.mparse v)).length + LARGE_COLLECTION_STRING_LIMIT - 1)
        / LARGE_COLLECTION_STRING_LIMIT
    ∧ 0 < (chunks LARGE_COLLECTION_STRING_LIMIT
        (lc.stringify (lc.mparse v))).length
    ∧ storeVal kv'.store (docIdKeyOf lc id)
        = some (.manifest ((List.range (chunks LARGE_COLLECTION_STRING_LIMIT
            (lc.stringify (lc.mparse v))).length).map KvKeyPart.num))
    ∧ (∀ i < (chunks LARGE_COLLECTION_STRING_LIMIT
          (lc.stringify (lc.mparse v))).length,
        storeVal kv'.store (segmentKeyOf lc id i)
          = some (.segment ((chunks LARGE_COLLECTION_STRING_LIMIT
              (lc.stringify (lc.mparse v))).getD i [])))
    ∧ (chunks LARGE_COLLECTION_STRING_LIMIT
        (lc.stringify (lc.mparse v))).flatten = lc.stringify (lc.mparse v)
    ∧ (∀ c ∈ chunks LARGE_COLLECTION_STRING_LIMIT (lc.stringify (lc.mparse v)),
        c.length ≤ LARGE_COLLECTION_STRING_LIMIT) := by
  obtain ⟨hd, hman, hsegs⟩ := setDocument_ok_state hidem retry kv v id d st kv' h
  subst hd
  have hlim : 1 ≤ LARGE_COLLECTION_STRING_LIMIT := by decide
  exact ⟨chunks_length hlim _,
    chunks_length_pos hlim _ hnev,
    hman, hsegs, chunks_flatten hlim _, chunks_mem_length _⟩

/-- Witness for claim C4 with the concrete unary codec over `Nat`. -/
theorem claimC4_witness :
    storeVal (setDocument unaryLC kvEmpty (some (.str "d")) 2 0 false).2.store
      (docIdKeyOf unaryLC (.str "d"))
      = some (.manifest ((List.range (chunks LARGE_COLLECTION_STRING_LIMIT
          (unaryLC.stringify (unaryLC.mparse 2))).length).map KvKeyPart.num)) :=
  (claimC4 (fun _ => rfl) (by decide)
    (show setDocument unaryLC kvEmpty (some (.str "d")) 2 0 false
      = (SetRes.ok (.str "d") 3,
         (setDocument unaryLC kvEmpty (some (.str "d")) 2 0 false).2) from rfl)).2.2.1

theorem entryStrOpt_isSome (kv : Kv) (k : KvKey) :
    (entryStrOpt (storeGet kv.store k)).isSome = segTruthyAt kv k := by
  cases hg : storeGet kv.store k with
  | none => simp [entryStrOpt, segTruthyAt, storeVal, hg]
  | some p =>
    obtain ⟨vv, stt⟩ := p
    by_cases ht : kvValTruthy vv = true
    · simp [entryStrOpt, segTruthyAt, storeVal, hg, ht]
    · rw [Bool.not_eq_true] at ht
      simp [entryStrOpt, segTruthyAt, storeVal, hg, ht]

theorem reduceOption_length_eq_iff {l : List (Option γ)} :
    l.reduceOption.length = l.length ↔ ∀ x ∈ l, x.isSome = true := by
  induction l with
  | nil => simp
  | cons x rest ih =>
    cases x with
    | none =>
      simp only [List.reduceOption, List.filterMap_cons, id, List.length_cons] at ih ⊢
      constructor
      · intro h
        exfalso
        have hle : (rest.filterMap id).length ≤ rest.length :=
          List.length_filterMap_le _ _
        omega
      · intro h
        have := h none (List.mem_cons_self _ _)
        simp at this
    | some a =>
      simp only [List.reduceOption, List.filterMap_cons, id, List.length_cons] at ih ⊢
      constructor
      · intro h
        intro x hx
        rcases List.mem_cons.mp hx with rfl | hx2
        · rfl
        · exact (ih.mp (by omega)) x hx2
      · intro h
        have := ih.mpr (fun x hx => h x (List.mem_cons_of_mem _ hx))
        omega

theorem constructLargeDocument_err_iff {lc : LC α} (kv : Kv) (id : KvId)
    (ids : List KvId) (st : Nat) :
    isCorruptErr (constructLargeDocument lc kv id (.manifest ids) st).1 = true ↔
      (ids.all (fun sid => segTruthyAt kv
          (extendKey lc.segmentSpaceKey [id, sid])) = false
      ∨ lc.parse ((ids.map (fun sid => segStrAt kv
          (extendKey lc.segmentSpaceKey [id, sid]))).flatten) = none) := by
  simp only [constructLargeDocument, kvValIds]
  rw [kvGetMany_fst]
  have hk2 : ((ids.map (fun segId => extendKey lc.segmentSpaceKey [id, segId])).map
        (storeGet kv.store))
      = ids.map (fun sid =>
          storeGet kv.store (extendKey lc.segmentSpaceKey [id, sid])) := by
    rw [List.map_map]
    rfl
  rw [hk2, jsonPartsFold_eq, List.nil_append]
  have hk3 : ((ids.map (fun sid =>
        storeGet kv.store (extendKey lc.segmentSpaceKey [id, sid]))).map entryStrOpt)
      = ids.map (fun sid =>
          entryStrOpt (storeGet kv.store (extendKey lc.segmentSpaceKey [id, sid]))) := by
    rw [List.map_map]
    rfl
  rw [hk3]
  by_cases hall : ids.all (fun sid => segTruthyAt kv
      (extendKey lc.segmentSpaceKey [id, sid])) = true
  · have hmap : ids.map (fun sid =>
        entryStrOpt (storeGet kv.store (extendKey lc.segmentSpaceKey [id, sid])))
        = ids.map (fun sid =>
            some (segStrAt kv (extendKey lc.segmentSpaceKey [id, sid]))) := by
      apply List.map_congr_left
      intro sid hsid
      have ht := (List.all_eq_true.mp hall) sid hsid
      cases hg : storeGet kv.store (extendKey lc.segmentSpaceKey [id, sid]) with
      | none => simp [segTruthyAt, storeVal, hg] at ht
      | some p =>
        obtain ⟨vv, stt⟩ := p
        have htv : kvValTruthy vv = true := by
          simpa [segTruthyAt, storeVal, hg] using ht
        simp [entryStrOpt, htv, segStrAt, storeVal, hg]
    rw [hmap, reduceOption_map_some]
    have hlen : ¬ ((ids.map (fun sid =>
        segStrAt kv (extendKey lc.segmentSpaceKey [id, sid]))).length
        ≠ (ids.map (fun sid =>
            storeGet kv.store (extendKey lc.segmentSpaceKey [id, sid]))).length) := by
      simp
    rw [if_neg hlen]
    cases hp : lc.parse ((ids.map (fun sid =>
        segStrAt kv (extendKey lc.segmentSpaceKey [id, sid]))).flatten) with
    | some w => simp [isCorruptErr, hall, hp]
    | none => simp [isCorruptErr, hp]
  · rw [Bool.not_eq_true] at hall
    have hlen : ((ids.map (fun sid =>
        entryStrOpt (storeGet kv.store
          (extendKey lc.segmentSpaceKey [id, sid])))).reduceOption).length
        ≠ (ids.map (fun sid =>
            storeGet kv.store (extendKey lc.segmentSpaceKey [id, sid]))).length := by
      intro hcontra
      rw [List.length_map] at hcontra
      rw [show ids.length = (ids.map (fun sid => entryStrOpt (storeGet kv.store
        (extendKey lc.segmentSpaceKey [id, sid])))).length from (List.length_map _ _).symm]
        at hcontra
      have hsome := reduceOption_length_eq_iff.mp hcontra
      have hall2 : ids.all (fun sid => segTruthyAt kv
          (extendKey lc.segmentSpaceKey [id, sid])) = true := by
        rw [List.all_eq_true]
        intro sid hsid
        have hmem := hsome _ (List.mem_map_of_mem
          (fun sid => entryStrOpt (storeGet kv.store
            (extendKey lc.segmentSpaceKey [id, sid]))) hsid)
        rw [entryStrOpt_isSome] at hmem
        exact hmem
      rw [hall2] at hall
      exact Bool.noConfusion hall
    rw [if_pos hlen]
    simp [isCorruptErr, hall]

/-- Claim C5 (amended): `find(id)` returns null without raising when the
manifest is absent; when a manifest is present, it raises
`CorruptedDocumentDataError` exactly when some listed segment key has no
value or a falsy (empty-string) value, or the concatenation of the stored
segment strings fails to JSON-decode. -/
theorem claimC5 {lc : LC α} (kv : Kv) (id : KvId) :
    (storeGet kv.store (docIdKeyOf lc id) = none → (findDoc lc kv id).1 = .ok none)
    ∧ (∀ (ids : List KvId) (st : Nat),
      storeGet kv.store (docIdKeyOf lc id) = some (.manifest ids, st) →
      (isCorruptErr (findDoc lc kv id).1 = true ↔
        (ids.all (fun sid => segTruthyAt kv
            (extendKey lc.segmentSpaceKey [id, sid])) = false
        ∨ lc.parse ((ids.map (fun sid => segStrAt kv
            (extendKey lc.segmentSpaceKey [id, sid]))).flatten) = none))) := by
  constructor
  · intro habs
    simp only [findDoc, kvGet]
    rw [habs]
  · intro ids st hget
    have hiff := @constructLargeDocument_err_iff α lc
      { kv with log := Event.getE (docIdKeyOf lc id) :: kv.log } id ids st
    cases hc : (constructLargeDocument lc
        { kv with log := Event.getE (docIdKeyOf lc id) :: kv.log }
        id (.manifest ids) st).1 with
    | ok dd =>
      rw [hc] at hiff
      have hfd : (findDoc lc kv id).1 = .ok (some dd) := by
        simp only [findDoc, kvGet]
        rw [hget]
        simp only []
        rw [hc]
      rw [hfd]
      constructor
      · intro hcontra
        exact absurd hcontra (by simp [isCorruptErr])
      · intro hrhs
        exfalso
        have hbad := hiff.mpr hrhs
        simp [isCorruptErr] at hbad
    | error e =>
      rw [hc] at hiff
      have hfd : (findDoc lc kv id).1 = .error e := by
        simp only [findDoc, kvGet]
        rw [hget]
        simp only []
        rw [hc]
      rw [hfd]
      constructor
      · intro _
        exact hiff.mp (by simp [isCorruptErr])
      · intro _
        simp [isCorruptErr]

/-- Witness for claim C5 (amended) at concrete stores: an absent manifest
yields null, and a healthy manifest raises nothing. -/
theorem claimC5_witness :
    (findDoc unaryLC kvEmpty (.str "x")).1 = .ok none
    ∧ isCorruptErr (findDoc unaryLC kvC5good (.str "doc")).1 = false := by
  constructor
  · exact (claimC5 kvEmpty (.str "x")).1 rfl
  · have h := (@claimC5 Nat unaryLC kvC5good (.str "doc")).2 [KvKeyPart.num 0] 1
      (by decide)
    have hrhs : ¬ (([KvKeyPart.num 0].all (fun sid => segTruthyAt kvC5good
          (extendKey unaryLC.segmentSpaceKey [.str "doc", sid])) = false)
        ∨ unaryLC.parse (([KvKeyPart.num 0].map (fun sid => segStrAt kvC5good
            (extendKey unaryLC.segmentSpaceKey [.str "doc", sid]))).flatten)
            = none) := by
      decide
    cases hc : isCorruptErr (findDoc unaryLC kvC5good (.str "doc")).1 with
    | false => rfl
    | true => exact absurd (h.mp hc) hrhs

/-- Counterexample to claim C5 as stated: in `kvC5bad` every listed
segment key has a value and the concatenated segment strings decode fine,
yet `find` raises `CorruptedDocumentDataError`, because the JS truthiness
test `entry.value ? ... : ...` drops the present-but-empty segment string
(src/src/large_collection.ts line 376). -/
theorem claimC5_counterexample :
    ¬ ((isCorruptErr (findDoc unaryLC kvC5bad (.str "doc")).1 = true) ↔
      (([KvKeyPart.num 0, KvKeyPart.num 1].any (fun sid =>
          (storeVal kvC5bad.store
            (extendKey unaryLC.segmentSpaceKey [.str "doc", sid])).isNone) = true)
      ∨ unaryLC.parse (([KvKeyPart.num 0, KvKeyPart.num 1].map (fun sid =>
          segStrAt kvC5bad
            (extendKey unaryLC.segmentSpaceKey [.str "doc", sid]))).flatten)
          = none)) := by
  decide

/-! ## Delete-path lemmas -/

theorem deleteSegments_flatten (lc : LC α) (kv : Kv) (id : KvId)
    (segIds : List KvId) :
    ((chunks ATOMIC_OPERATION_LIMIT segIds).map (List.map
      (fun segId => AtomicOp.del (extendKey lc.segmentSpaceKey [id, segId])))).flatten
    = segIds.map (fun segId =>
        AtomicOp.del (extendKey lc.segmentSpaceKey [id, segId])) := by
  rw [← List.map_flatten, chunks_flatten (by simp [ATOMIC_OPERATION_LIMIT])]

theorem deleteSegments_preserves_none {lc : LC α} {kv : Kv} {id : KvId}
    {segIds : List KvId} {k : KvKey}
    (h : storeGet kv.store k = none) :
    storeGet (deleteSegments lc kv id segIds).store k = none := by
  apply commitBatches_preserves_none ?_ h
  intro k2 v hmem
  rw [deleteSegments_flatten lc kv id segIds] at hmem
  rcases List.mem_map.mp hmem with ⟨sid, _, hcontra⟩
  exact AtomicOp.noConfusion hcontra

theorem writeEff_ne_none_of_del_mem {L : List AtomicOp} {k : KvKey}
    (h : AtomicOp.del k ∈ L) : writeEff L k ≠ none := by
  induction L with
  | nil => simp at h
  | cons op rest ih =>
    cases hrest : writeEff rest k with
    | some x => simp [writeEff, hrest]
    | none =>
      rcases List.mem_cons.mp h with rfl | hmem
      · simp [writeEff, hrest]
      · exact absurd hrest (ih hmem)

theorem deleteSegments_deletes {lc : LC α} {kv : Kv} {id : KvId}
    {segIds : List KvId} (horacle : oracleAllTrue kv = true) :
    ∀ sid ∈ segIds,
    storeGet (deleteSegments lc kv id segIds).store
      (extendKey lc.segmentSpaceKey [id, sid]) = none := by
  intro sid hsid
  have hnc : ∀ b ∈ (chunks ATOMIC_OPERATION_LIMIT segIds).map (List.map
      (fun segId => AtomicOp.del (extendKey lc.segmentSpaceKey [id, segId]))),
      b.all (fun op => !isCheckOp op) = true := by
    intro b hb
    rw [List.all_eq_true]
    intro op hop
    have hopin : op ∈ segIds.map (fun segId =>
        AtomicOp.del (extendKey lc.segmentSpaceKey [id, segId])) := by
      rw [← deleteSegments_flatten lc kv id segIds]
      exact List.mem_flatten.mpr ⟨b, hb, hop⟩
    rcases List.mem_map.mp hopin with ⟨s2, _, rfl⟩
    rfl
  have hall : ((useAtomics kv segIds (fun segId =>
      AtomicOp.del (extendKey lc.segmentSpaceKey [id, segId]))).1.all
      (fun x => x)) = true :=
    commitBatches_all_ok_of hnc horacle
  have hsv := useAtomics_store_all_ok hall
    (extendKey lc.segmentSpaceKey [id, sid])
  have hmemdel : AtomicOp.del (extendKey lc.segmentSpaceKey [id, sid])
      ∈ segIds.map (fun segId =>
        AtomicOp.del (extendKey lc.segmentSpaceKey [id, segId])) :=
    List.mem_map_of_mem _ hsid
  have hnosets : ∀ k2 v, AtomicOp.set k2 v ∉ segIds.map (fun segId =>
      AtomicOp.del (extendKey lc.segmentSpaceKey [id, segId])) := by
    intro k2 v hcontra
    rcases List.mem_map.mp hcontra with ⟨s2, _, hc2⟩
    exact AtomicOp.noConfusion hc2
  rcases writeEff_no_set (fun k2 v => hnosets k2 v)
      (extendKey lc.segmentSpaceKey [id, sid]) with heff | heff
  · exact absurd heff (writeEff_ne_none_of_del_mem hmemdel)
  · rw [heff] at hsv
    show storeGet (useAtomics kv segIds (fun segId =>
      AtomicOp.del (extendKey lc.segmentSpaceKey [id, segId]))).2.store
      (extendKey lc.segmentSpaceKey [id, sid]) = none
    have := hsv
    simp only [storeVal, Option.map_eq_none'] at this
    exact this

theorem deleteDoc_eq {lc : LC α} {kv : Kv} {id : KvId} {v : KvVal} {st : Nat}
    (hget : storeGet kv.store (docIdKeyOf lc id) = some (v, st))
    (htr : kvValTruthy v = true) :
    deleteDoc lc kv id = deleteSegments lc
      (kvDeleteKey { kv with log := Event.getE (docIdKeyOf lc id) :: kv.log }
        (docIdKeyOf lc id)) id (kvValIds v) := by
  simp only [deleteDoc, kvGet]
  rw [hget]
  simp only []
  rw [htr]
  simp

theorem deleteDoc_clears {lc : LC α} {kv : Kv} {id : KvId} {v : KvVal} {st : Nat}
    (hget : storeGet kv.store (docIdKeyOf lc id) = some (v, st))
    (htr : kvValTruthy v = true)
    (horacle : oracleAllTrue kv = true) :
    storeGet (deleteDoc lc kv id).store (docIdKeyOf lc id) = none
    ∧ ∀ sid ∈ kvValIds v,
      storeGet (deleteDoc lc kv id).store
        (extendKey lc.segmentSpaceKey [id, sid]) = none := by
  rw [deleteDoc_eq hget htr]
  have hmid : storeGet (kvDeleteKey
      { kv with log := Event.getE (docIdKeyOf lc id) :: kv.log }
      (docIdKeyOf lc id)).store (docIdKeyOf lc id) = none := by
    show storeGet (storeDel kv.store (docIdKeyOf lc id)) (docIdKeyOf lc id) = none
    rw [storeGet_storeDel]
    simp
  have horacle2 : oracleAllTrue (kvDeleteKey
      { kv with log := Event.getE (docIdKeyOf lc id) :: kv.log }
      (docIdKeyOf lc id)) = true := horacle
  exact ⟨deleteSegments_preserves_none hmid,
    deleteSegments_deletes horacle2⟩

/-- Claim C8: `delete(id)` is a no-op on the store when no manifest exists
at the id-key; when one exists, the manifest key is deleted first (the
intermediate state differs from the initial one at the id-key alone, so
every listed segment is still present while the manifest is already gone)
and only afterwards are the listed segment keys deleted. -/
theorem claimC8 {lc : LC α} (kv : Kv) (id : KvId) :
    (storeGet kv.store (docIdKeyOf lc id) = none →
      (deleteDoc lc kv id).store = kv.store)
    ∧ (∀ v st, storeGet kv.store (docIdKeyOf lc id) = some (v, st) →
        kvValTruthy v = true →
        deleteDoc lc kv id
          = deleteSegments lc
              (kvDeleteKey { kv with log := Event.getE (docIdKeyOf lc id) :: kv.log }
                (docIdKeyOf lc id)) id (kvValIds v)
        ∧ (∀ k2, storeGet (kvDeleteKey
              { kv with log := Event.getE (docIdKeyOf lc id) :: kv.log }
              (docIdKeyOf lc id)).store k2
            = if docIdKeyOf lc id = k2 then none else storeGet kv.store k2)
        ∧ storeGet (deleteDoc lc kv id).store (docIdKeyOf lc id) = none
        ∧ (oracleAllTrue kv = true →
            ∀ sid ∈ kvValIds v,
            storeGet (deleteDoc lc kv id).store
              (extendKey lc.segmentSpaceKey [id, sid]) = none)) := by
  constructor
  · intro habs
    simp only [deleteDoc, kvGet]
    rw [habs]
  · intro v st hget htr
    have heq := deleteDoc_eq hget htr
    have hmid : ∀ k2, storeGet (kvDeleteKey
        { kv with log := Event.getE (docIdKeyOf lc id) :: kv.log }
        (docIdKeyOf lc id)).store k2
        = if docIdKeyOf lc id = k2 then none else storeGet kv.store k2 := by
      intro k2
      show storeGet (storeDel kv.store (docIdKeyOf lc id)) k2 = _
      exact storeGet_storeDel _ _ _
    refine ⟨heq, hmid, ?_, ?_⟩
    · rw [heq]
      apply deleteSegments_preserves_none
      rw [hmid]
      simp
    · intro horacle
      exact (deleteDoc_clears hget htr horacle).2

/-- Witness for claim C8 at concrete stores. -/
theorem claimC8_witness :
    (deleteDoc unaryLC kvEmpty (.str "x")).store = []
    ∧ storeGet (deleteDoc unaryLC kvC5good (.str "doc")).store
        (docIdKeyOf unaryLC (.str "doc")) = none := by
  constructor
  · exact (claimC8 kvEmpty (.str "x")).1 rfl
  · exact ((@claimC8 Nat unaryLC kvC5good (.str "doc")).2
      (KvVal.manifest [.num 0]) 1 (by decide) (by decide)).2.2.1

/-- Claim C6: when the id-key already holds an entry the lone
`versionstamp: null` probe fails; with `overwrite = false` `setDocument`
returns `{ok:false}` with the store contents untouched, and with
`overwrite = true` the attempt first runs `delete(id)` — removing the
prior manifest and (interference permitting) its listed segments — before
running the write body. -/
theorem claimC6 {lc : LC α} {kv : Kv} {d : KvId} {v : α} {retry : Nat}
    {e : KvVal} {st0 : Nat}
    (hpresent : storeGet kv.store (docIdKeyOf lc d) = some (e, st0)) :
    ((setDocument lc kv (some d) v retry false).1 = .fail
      ∧ (setDocument lc kv (some d) v retry false).2.store = kv.store)
    ∧ (setDocAttempt lc kv d (lc.mparse v) true
        = setDocProceed lc
            (deleteDoc lc (kvAtomicCommit kv
              [.check (docIdKeyOf lc d) none]).2 d) d (lc.mparse v))
    ∧ (oracleAllTrue kv = true → kvValTruthy e = true →
        storeGet (deleteDoc lc (kvAtomicCommit kv
            [.check (docIdKeyOf lc d) none]).2 d).store (docIdKeyOf lc d) = none
        ∧ ∀ sid ∈ kvValIds e,
          storeGet (deleteDoc lc (kvAtomicCommit kv
              [.check (docIdKeyOf lc d) none]).2 d).store
            (extendKey lc.segmentSpaceKey [d, sid]) = none) := by
  have hprobe : (kvAtomicCommit kv [.check (docIdKeyOf lc d) none]).1 = false := by
    apply kvAtomicCommit_fail_of_check (List.mem_singleton.mpr rfl)
    rw [hpresent]
    simp
  have hatt : setDocAttempt lc kv d (lc.mparse v) false
      = (.done .fail, (kvAtomicCommit kv [.check (docIdKeyOf lc d) none]).2) := by
    simp only [setDocAttempt]
    rw [hprobe]
    simp
  refine ⟨?_, ?_, ?_⟩
  · have hd0 : setDocument lc kv (some d) v retry false
        = (.fail, (kvAtomicCommit kv [.check (docIdKeyOf lc d) none]).2) := by
      rw [setDocument_unfold_some, hatt]
    rw [hd0]
    exact ⟨rfl, kvAtomicCommit_fail_store hprobe⟩
  · simp only [setDocAttempt]
    rw [hprobe]
    simp
  · intro horacle htr
    have hget2 : storeGet (kvAtomicCommit kv
        [.check (docIdKeyOf lc d) none]).2.store (docIdKeyOf lc d)
        = some (e, st0) := by
      rw [kvAtomicCommit_fail_store hprobe]
      exact hpresent
    have horacle2 : oracleAllTrue (kvAtomicCommit kv
        [.check (docIdKeyOf lc d) none]).2 = true :=
      oracleAllTrue_tail horacle _ (kvAtomicCommit_oracle _ _)
    exact deleteDoc_clears hget2 htr horacle2

/-- Witness for claim C6 at a concrete occupied id-key. -/
theorem claimC6_witness :
    (setDocument unaryLC kvC5good (some (.str "doc")) 7 0 false).1 = SetRes.fail
    ∧ (setDocument unaryLC kvC5good (some (.str "doc")) 7 0 false).2.store
        = kvC5good.store :=
  (claimC6 (show storeGet kvC5good.store (docIdKeyOf unaryLC (.str "doc"))
    = some (KvVal.manifest [.num 0], 1) from by decide)).1

/-! ## Retry-path lemmas -/

theorem setDocAttempts_unfold (lc : LC α) (kv : Kv) (id : Option KvId) (v : α)
    (retry : Nat) (ow : Bool) :
    setDocAttempts lc kv id v retry ow =
      match setDocAttempt lc kv (id.getD (lc.idGen (lc.mparse v)))
          (lc.mparse v) ow with
      | (.done _, _) => 1
      | (.failedRetry, kv2) =>
        match retry with
        | 0 => 1
        | n + 1 => 1 + setDocAttempts lc kv2
            (some (id.getD (lc.idGen (lc.mparse v)))) (lc.mparse v) n ow := by
  cases retry with
  | zero =>
    unfold setDocAttempts
    rfl
  | succ n =>
    conv_lhs => unfold setDocAttempts

theorem setDocProceed_failed_clean {lc : LC α} {kv0 kv1 : Kv} {d : KvId}
    {parsed : α}
    (h : setDocProceed lc kv0 d parsed = (.failedRetry, kv1)) :
    ∀ i < (chunks LARGE_COLLECTION_STRING_LIMIT (lc.stringify parsed)).length,
      storeVal kv1.store (segmentKeyOf lc d i) = none := by
  have hmem : ∀ i < (chunks LARGE_COLLECTION_STRING_LIMIT
      (lc.stringify parsed)).length,
      segmentKeyOf lc d i ∈ segmentKeysOf lc d
        (chunks LARGE_COLLECTION_STRING_LIMIT (lc.stringify parsed)).length := by
    intro i hi
    exact List.mem_map_of_mem _ (List.mem_range.mpr hi)
  simp only [setDocProceed] at h
  split at h
  case isTrue hsuc =>
    split at h
    case isTrue hmok =>
      rw [Prod.mk.injEq] at h
      exact absurd h.1 (by intro hc; exact AttemptOut.noConfusion hc)
    case isFalse hmok =>
      rw [Prod.mk.injEq] at h
      intro i hi
      rw [← h.2]
      simp only [storeVal, Option.map_eq_none']
      exact deleteKeysDirect_none _ (hmem i hi)
  case isFalse hsuc =>
    rw [Prod.mk.injEq] at h
    intro i hi
    rw [← h.2]
    simp only [storeVal, Option.map_eq_none']
    exact deleteKeysDirect_none _ (hmem i hi)

theorem setDocAttempt_failed_clean {lc : LC α} {kv kv1 : Kv} {d : KvId}
    {parsed : α} {ow : Bool}
    (h : setDocAttempt lc kv d parsed ow = (.failedRetry, kv1)) :
    ∀ i < (chunks LARGE_COLLECTION_STRING_LIMIT (lc.stringify parsed)).length,
      storeVal kv1.store (segmentKeyOf lc d i) = none := by
  simp only [setDocAttempt] at h
  split at h
  case isTrue hchk => exact setDocProceed_failed_clean h
  case isFalse hchk =>
    split at h
    case isTrue how => exact setDocProceed_failed_clean h
    case isFalse how =>
      rw [Prod.mk.injEq] at h
      exact absurd h.1 (by intro hc; exact AttemptOut.noConfusion hc)

/-- Claim C7: a `setDocument` call with `retry = r` performs at most
`r + 1` attempts; an attempt whose segment batches or manifest commit
fail leaves every segment key of the attempt deleted, after which the
operation recurses with `retry - 1` while `retry > 0` and returns
`{ok:false}` once `retry` reaches 0. -/
theorem claimC7 :
    (∀ (lc : LC α) (kv : Kv) (id : Option KvId) (v : α) (r : Nat) (ow : Bool),
      setDocAttempts lc kv id v r ow ≤ r + 1)
    ∧ (∀ (lc : LC α) (kv kv1 : Kv) (d : KvId) (v : α) (ow : Bool),
        setDocAttempt lc kv d (lc.mparse v) ow = (.failedRetry, kv1) →
        (∀ i < (chunks LARGE_COLLECTION_STRING_LIMIT
            (lc.stringify (lc.mparse v))).length,
          storeVal kv1.store (segmentKeyOf lc d i) = none)
        ∧ setDocument lc kv (some d) v 0 ow = (.fail, kv1)
        ∧ (∀ r, setDocument lc kv (some d) v (r + 1) ow
            = setDocument lc kv1 (some d) (lc.mparse v) r ow)) := by
  constructor
  · intro lc kv id v r ow
    induction r generalizing kv id v with
    | zero =>
      rw [setDocAttempts_unfold]
      cases ha : setDocAttempt lc kv (id.getD (lc.idGen (lc.mparse v)))
          (lc.mparse v) ow with
      | mk out kv2 => cases out <;> simp
    | succ n ih =>
      rw [setDocAttempts_unfold]
      cases ha : setDocAttempt lc kv (id.getD (lc.idGen (lc.mparse v)))
          (lc.mparse v) ow with
      | mk out kv2 =>
        cases out with
        | done rr => simp
        | failedRetry =>
          simp only []
          have hrec := ih kv2 (some (id.getD (lc.idGen (lc.mparse v))))
            (lc.mparse v)
          exact le_trans (Nat.add_le_add_left hrec 1) (by omega)
  · intro lc kv kv1 d v ow h
    refine ⟨setDocAttempt_failed_clean h, ?_, ?_⟩
    · rw [setDocument_unfold_some, h]
    · intro r
      rw [setDocument_unfold_some, h]

/-- Witness for claim C7: a run whose interference oracle fails the
segment batch of the first attempt. -/
theorem claimC7_witness :
    setDocAttempts unaryLC kvC7 (some (.str "d")) 0 5 false ≤ 6
    ∧ setDocument unaryLC kvC7 (some (.str "d")) 0 0 false
      = (.fail, (setDocAttempt unaryLC kvC7 (.str "d") 0 false).2) := by
  constructor
  · exact claimC7.1 unaryLC kvC7 (some (.str "d")) 0 5 false
  · have h := claimC7.2 unaryLC kvC7
      (setDocAttempt unaryLC kvC7 (.str "d") 0 false).2 (.str "d") 0 false
      (show setDocAttempt unaryLC kvC7 (.str "d") (unaryLC.mparse 0) false
        = (AttemptOut.failedRetry,
           (setDocAttempt unaryLC kvC7 (.str "d") 0 false).2) from rfl)
    exact h.2.1
